import Mathlib

/-!
# PageRank by power iteration on a sparse transposed Google matrix

A shallow embedding of `src/PageRank.cpp` (`build_google_graph`, `PageRank`, and the
start vector that `main` supplies) together with theorems about it.

Modelling conventions.

* `double` is modelled twice.  The first embedding computes in an arbitrary linearly
  ordered field `K` (exact arithmetic, no rounding); its definitions are computable and can
  be evaluated at `K = ℚ`.  Division by zero is `0` in a field, whereas IEEE gives
  `inf`/`NaN`; every property stated of a quotient either proves or assumes the divisor
  non-zero, or says explicitly that it is zero.  The second embedding (`Double`, the definitions ending in
  `_double`) rounds every operation to binary64; it shows where a statement that holds in
  exact arithmetic fails on the code's own arithmetic.
* `int` is modelled by `Int` (indices, keys, the counts `n` and `iterations`) and the
  non-negative outlink counters by `Nat`; overflow of `int` is not modelled (it needs an
  edge list of at least `2^31` edges).
* `std::vector<T>` is a `List T`.  An access `v[i]` whose index comes from the data
  (`G[dest]`, `outlinks[src]`, `pi[i]`) is checked: the embedding returns `none` where the
  C++ access would be out of range.  Loops whose counter runs over `0 .. size-1` of the
  vector they index are traversals of the list.
* `std::unordered_map<int,double>` is an association list with pairwise distinct keys;
  `m[k] = v` overwrites the entry of `k` in place or adds a new entry.  The iteration
  order of an `unordered_map` is unspecified; the model iterates in insertion order.
-/

namespace UCPageRank

/-! ## The embedding of `build_google_graph` and `PageRank` -/

/-- An `unordered_map<int,double>`: the entries `(key, value)`. -/
abbrev Row (K : Type) := List (Int × K)

/-- A `vector<unordered_map<int,double>>`: `G[dest]` maps `src` to a weight. -/
abbrev Graph (K : Type) := List (Row K)

/-- Checked read `v[i]` of a vector at an `int` index. -/
def vec_get {α : Type} (v : List α) (i : Int) : Option α :=
  if i < 0 then none else v[i.toNat]?

/-- Checked update `v[i] = f (v[i])` of a vector at an `int` index. -/
def vec_update {α : Type} (f : α → α) (v : List α) (i : Int) : Option (List α) :=
  match vec_get v i with
  | none => none
  | some x => some (v.set i.toNat (f x))

/-- The assignment `m[k] = v` on an `unordered_map`: overwrite the entry of `k` if there is
one, otherwise add the entry `(k, v)`. -/
def assign {K : Type} : Row K → Int → K → Row K
  | [], k, v => [(k, v)]
  | (k', v') :: rest, k, v =>
    if k' = k then (k', v) :: rest else (k', v') :: assign rest k v

/-- The lookup of key `k` in an `unordered_map`: its value if the entry is present. -/
def find {K : Type} : Row K → Int → Option K
  | [], _ => none
  | (k', v') :: rest, k => if k' = k then some v' else find rest k

/-- The entry `G[dest][src]` of the sparse matrix, `none` when it is absent (or when `dest`
is not a row of `G`). -/
def entry {K : Type} (G : Graph K) (dest src : Int) : Option K :=
  match vec_get G dest with
  | none => none
  | some row => find row src

/-- A loop `for (dest = 0; dest < n; ++dest)` over the rows of `G` whose body may fail:
the results row by row, `none` as soon as one body fails. -/
def for_each_row {α β : Type} (body : α → Option β) : List α → Option (List β)
  | [] => some []
  | row :: rows =>
    match body row with
    | none => none
    | some r =>
      match for_each_row body rows with
      | none => none
      | some rs => some (r :: rs)

/-- The drain loop of `build_google_graph` (source lines 113-128): while the edge list is
not empty, pop its front `(src, dest)`, set `G[dest][src] = -1.0` and increment
`outlinks[src]`.  Returns the edge list, `G` and `outlinks` as the loop leaves them. -/
def drain {K : Type} [Field K] :
    List (Int × Int) → Graph K → List Nat → Option (List (Int × Int) × Graph K × List Nat)
  | [], G, outlinks => some ([], G, outlinks)
  | (src, dest) :: E, G, outlinks =>
    match vec_update (fun row => assign row src (-1)) G dest with
    | none => none
    | some G' =>
      match vec_update (fun c => c + 1) outlinks src with
      | none => none
      | some outlinks' => drain E G' outlinks'

/-- One execution of the body of the drain loop (source lines 115-127) on the state
`(E, G, outlinks)`: pop the front edge, set `G[dest][src] = -1.0`, increment
`outlinks[src]`.  There is no execution on an empty edge list (the loop condition
`E.size() > 0` fails), and none when an index is out of range. -/
def drain_body {K : Type} [Field K] :
    List (Int × Int) × Graph K × List Nat → Option (List (Int × Int) × Graph K × List Nat)
  | ([], _, _) => none
  | ((src, dest) :: E, G, outlinks) =>
    match vec_update (fun row => assign row src (-1)) G dest with
    | none => none
    | some G' =>
      match vec_update (fun c => c + 1) outlinks src with
      | none => none
      | some outlinks' => some (E, G', outlinks')

/-- The state of the drain loop after `j` executions of its body. -/
def drain_steps {K : Type} [Field K] :
    Nat → List (Int × Int) × Graph K × List Nat →
      Option (List (Int × Int) × Graph K × List Nat)
  | 0, st => some st
  | j + 1, st =>
    match drain_body st with
    | none => none
    | some st' => drain_steps j st'

/-- The inner loop of the link pass (source lines 133-138) on one `G[dest]`: every entry
`(src, _)` gets the value `1.0/outlinks[src]`. -/
def normalize_row {K : Type} [Field K] (outlinks : List Nat) : Row K → Option (Row K)
  | [] => some []
  | (src, _) :: rest =>
    match vec_get outlinks src with
    | none => none
    | some c =>
      match normalize_row outlinks rest with
      | none => none
      | some rest' => some ((src, 1 / (c : K)) :: rest')

/-- The link pass (source lines 131-139) over all rows `dest = 0 .. n-1`. -/
def normalize_links {K : Type} [Field K] (outlinks : List Nat) (G : Graph K) :
    Option (Graph K) :=
  for_each_row (normalize_row outlinks) G

/-- The inner loop of the dangling pass (source lines 147-150): `G[dest][src] = v` for
every row `dest`. -/
def fill_column {K : Type} (src : Int) (v : K) (G : Graph K) : Graph K :=
  G.map (fun row => assign row src v)

/-- The dangling pass (source lines 143-152) for `src = 0 .. m-1`: a vertex whose outlink
count is zero gets the value `v` in every row. -/
def dangling_fill {K : Type} (outlinks : List Nat) (v : K) : Nat → Graph K → Graph K
  | 0, G => G
  | m + 1, G =>
    let G' := dangling_fill outlinks v m G
    if outlinks[m]? = some 0 then fill_column (m : Int) v G' else G'

/-- The damping pass (source lines 159-169): every present entry `w` becomes
`alpha*w + jump`. -/
def damping {K : Type} [Field K] (alpha jump : K) (G : Graph K) : Graph K :=
  G.map (fun row => row.map (fun e => (e.1, alpha * e.2 + jump)))

/-- The function `build_google_graph` (source lines 91-171).  The result is the edge list
and `G` as the call leaves them; `none` when the vector cannot be created (`n < 0`) or an
index is out of range. -/
def build_google_graph {K : Type} [Field K] (n : Int) (E : List (Int × Int)) (alpha : K) :
    Option (List (Int × Int) × Graph K) :=
  if n < 0 then none else
    match drain E (List.replicate n.toNat ([] : Row K)) (List.replicate n.toNat 0) with
    | none => none
    | some (E', G1, outlinks) =>
      match normalize_links outlinks G1 with
      | none => none
      | some G2 =>
        let G3 := dangling_fill outlinks (1 / (n : K)) n.toNat G2
        let jump_transition_prob := (1 - alpha) * (1 / (n : K))
        some (E', damping alpha jump_transition_prob G3)

/-- The inner loop of the multiplication (source lines 192-198): starting from `acc`, add
`pi[i]*G_ij` for every entry `(i, G_ij)` of `G[j]`. -/
def row_sum {K : Type} [Field K] (pi : List K) : Row K → K → Option K
  | [], acc => some acc
  | (i, G_ij) :: rest, acc =>
    match vec_get pi i with
    | none => none
    | some p => row_sum pi rest (acc + p * G_ij)

/-- The multiplication loop (source lines 188-200): `next_pi[j]` for `j = 0 .. n-1`, each
accumulated from `0.0`. -/
def next_vector {K : Type} [Field K] (pi : List K) (G : Graph K) : Option (List K) :=
  for_each_row (fun row => row_sum pi row 0) G

/-- The sum `L1_pi` accumulated by the loop of source lines 205-207. -/
def L1_sum {K : Type} [Field K] (pi : List K) : K :=
  pi.foldl (fun acc x => acc + x) 0

/-- One round of `PageRank` (the body of the loop, source lines 186-211): multiply, replace
`pi` by `next_pi`, divide every entry by the sum of the entries. -/
def PageRank_round {K : Type} [Field K] (G : Graph K) (pi : List K) : Option (List K) :=
  match next_vector pi G with
  | none => none
  | some next_pi => some (next_pi.map (fun x => x / L1_sum next_pi))

/-- The loop of `PageRank` run for `k` more rounds. -/
def PageRank_loop {K : Type} [Field K] (G : Graph K) : Nat → List K → Option (List K)
  | 0, pi => some pi
  | k + 1, pi =>
    match PageRank_round G pi with
    | none => none
    | some pi' => PageRank_loop G k pi'

/-- The function `PageRank` (source lines 177-213): the loop `for (k = 0; k < iterations;
++k)` runs `iterations` rounds, none when `iterations` is negative.  The result is `pi` as
the call leaves it. -/
def PageRank {K : Type} [Field K] (G : Graph K) (pi : List K) (iterations : Int) :
    Option (List K) :=
  PageRank_loop G iterations.toNat pi

/-- The start vector of `main` (source line 40): `n` entries `1.0/n`. -/
def initial_pi {K : Type} [Field K] (n : Int) : List K :=
  List.replicate n.toNat (1 / (n : K))

/-! ## The embedding of the same code in `double` arithmetic

The definitions above compute in an exact field.  The definitions below repeat the
arithmetic of the source with every C++ operation on `double` rounded once to the nearest
binary64 number, ties to even (no fused multiply-add, no extended precision).  They are
used to evaluate the code's arithmetic at concrete inputs. -/

/-- A finite IEEE-754 binary64 number (a C++ `double`), written `m * 2^e` in lowest terms:
`m` is odd, or `m = 0` and `e = 0`.  Only the significand width (53 bits) is modelled: the
exponent is unbounded, so overflow, subnormal numbers, infinities, NaN and the sign of
zero are outside the model. -/
structure Double where
  /-- The odd significand (or `0`). -/
  m : Int
  /-- The binary exponent. -/
  e : Int
deriving DecidableEq

/-- The exact value `m * 2^e` of a `Double`. -/
def Double.toRat (x : Double) : ℚ :=
  (x.m : ℚ) * (2 : ℚ) ^ x.e

/-- The number of binary digits of `n`, found by at most `fuel` halvings (`fuel = n` is
always enough). -/
def bit_length : Nat → Nat → Nat
  | 0, _ => 0
  | fuel + 1, n => if n = 0 then 0 else bit_length fuel (n / 2) + 1

/-- Halve an even non-zero `m` and increment `e`, at most `fuel` times: `m * 2^e` in lowest
terms when `fuel` is large enough (`fuel = |m|` always is). -/
def Double.reduce : Nat → Int → Int → Double
  | 0, m, e => ⟨m, e⟩
  | fuel + 1, m, e =>
    if m = 0 then ⟨0, 0⟩
    else if m % 2 = 0 then Double.reduce fuel (m / 2) (e + 1)
    else ⟨m, e⟩

/-- The number `m * 2^e` in lowest terms. -/
def Double.norm (m e : Int) : Double :=
  Double.reduce (m.natAbs + 1) m e

/-- Rounding to `double`: the number with a 53-bit significand nearest to
`(num / den) * 2^e`, a tie going to the even significand (the IEEE-754 default
rounding). -/
def Double.round (num : Int) (den : Nat) (e : Int) : Double :=
  if num = 0 ∨ den = 0 then ⟨0, 0⟩
  else
    let p := num.natAbs
    -- with `t` as follows, `(p / den) * 2^t = N / D` lies strictly between `2^52` and `2^54`
    let t : Int := 53 - ((bit_length p p : Int) - (bit_length den den : Int))
    let N := p * 2 ^ t.toNat
    let D := den * 2 ^ (-t).toNat
    -- one binary place less if the integer part has 54 digits, so that `2^52 ≤ Q < 2^53`
    let wide := decide (2 ^ 53 ≤ N / D)
    let D' := if wide then 2 * D else D
    let t' := if wide then t - 1 else t
    let Q := N / D'
    let R := N % D'
    -- below a half: down; above a half: up; exactly a half: to the even neighbour
    let M := if 2 * R < D' then Q else if D' < 2 * R then Q + 1 else Q + Q % 2
    Double.norm (if num < 0 then -(M : Int) else (M : Int)) (e - t')

/-- The conversion of an `int` to `double`. -/
def Double.ofInt (i : Int) : Double :=
  Double.round i 1 0

/-- The `double` sum `x + y`: the exact sum, rounded. -/
def Double.add (x y : Double) : Double :=
  let e := min x.e y.e
  Double.round (x.m * 2 ^ (x.e - e).toNat + y.m * 2 ^ (y.e - e).toNat) 1 e

/-- The `double` difference `x - y`: the exact difference, rounded. -/
def Double.sub (x y : Double) : Double :=
  let e := min x.e y.e
  Double.round (x.m * 2 ^ (x.e - e).toNat - y.m * 2 ^ (y.e - e).toNat) 1 e

/-- The `double` product `x * y`: the exact product, rounded. -/
def Double.mul (x y : Double) : Double :=
  Double.round (x.m * y.m) 1 (x.e + y.e)

/-- The `double` quotient `x / y`: the exact quotient, rounded; `none` for a zero divisor,
where the C++ result is an infinity or NaN. -/
def Double.div (x y : Double) : Option Double :=
  if y.m = 0 then none
  else some (Double.round (if y.m < 0 then -x.m else x.m) y.m.natAbs (x.e - y.e))

/-- The drain loop (source lines 113-128) with the `double` placeholder `-1.0`. -/
def drain_double :
    List (Int × Int) → Graph Double → List Nat →
      Option (List (Int × Int) × Graph Double × List Nat)
  | [], G, outlinks => some ([], G, outlinks)
  | (src, dest) :: E, G, outlinks =>
    match vec_update (fun row => assign row src (Double.ofInt (-1))) G dest with
    | none => none
    | some G' =>
      match vec_update (fun c => c + 1) outlinks src with
      | none => none
      | some outlinks' => drain_double E G' outlinks'

/-- The inner loop of the link pass (source lines 133-138) in `double` arithmetic: every
entry `(src, _)` gets the value `1.0/outlinks[src]`. -/
def normalize_row_double (outlinks : List Nat) : Row Double → Option (Row Double)
  | [] => some []
  | (src, _) :: rest =>
    match vec_get outlinks src with
    | none => none
    | some c =>
      match Double.div (Double.ofInt 1) (Double.ofInt (c : Int)) with
      | none => none
      | some w =>
        match normalize_row_double outlinks rest with
        | none => none
        | some rest' => some ((src, w) :: rest')

/-- The damping pass (source lines 159-169) in `double` arithmetic: every present entry
`w` becomes `alpha*w + jump`, the product rounded and then the sum rounded. -/
def damping_double (alpha jump : Double) (G : Graph Double) : Graph Double :=
  G.map (fun row => row.map (fun e => (e.1, Double.add (Double.mul alpha e.2) jump)))

/-- The function `build_google_graph` (source lines 91-171) in `double` arithmetic, every
operation rounded once.  The result is `none` when the vector cannot be created, an index
is out of range, or a value is not finite. -/
def build_google_graph_double (n : Int) (E : List (Int × Int)) (alpha : Double) :
    Option (List (Int × Int) × Graph Double) :=
  if n < 0 then none else
    match drain_double E (List.replicate n.toNat ([] : Row Double))
        (List.replicate n.toNat 0) with
    | none => none
    | some (E', G1, outlinks) =>
      match for_each_row (normalize_row_double outlinks) G1 with
      | none => none
      | some G2 =>
        match Double.div (Double.ofInt 1) (Double.ofInt n) with
        | none => none
        | some one_over_n =>
          let G3 := dangling_fill outlinks one_over_n n.toNat G2
          let jump_transition_prob := Double.mul (Double.sub (Double.ofInt 1) alpha) one_over_n
          some (E', damping_double alpha jump_transition_prob G3)

/-- The inner loop of the multiplication (source lines 192-198) in `double` arithmetic:
`pi_j += pi[i]*G_ij`, the product rounded and then the sum rounded. -/
def row_sum_double (pi : List Double) : Row Double → Double → Option Double
  | [], acc => some acc
  | (i, G_ij) :: rest, acc =>
    match vec_get pi i with
    | none => none
    | some p => row_sum_double pi rest (Double.add acc (Double.mul p G_ij))

/-- The multiplication loop (source lines 188-200) in `double` arithmetic: `next_pi[j]`
for `j = 0 .. n-1`, each accumulated from `0.0`. -/
def next_vector_double (pi : List Double) (G : Graph Double) : Option (List Double) :=
  for_each_row (fun row => row_sum_double pi row (Double.ofInt 0)) G

/-- The sum `L1_pi` accumulated from `0.0` in index order by the loop of source lines
205-207, in `double` arithmetic. -/
def L1_sum_double (pi : List Double) : Double :=
  pi.foldl Double.add (Double.ofInt 0)

/-- One round of `PageRank` (source lines 186-211) in `double` arithmetic: multiply,
replace `pi` by `next_pi`, divide every entry by the sum of the entries; `none` also when
that sum is zero, where the C++ quotients are infinities or NaN. -/
def PageRank_round_double (G : Graph Double) (pi : List Double) : Option (List Double) :=
  match next_vector_double pi G with
  | none => none
  | some next_pi => for_each_row (fun x => Double.div x (L1_sum_double next_pi)) next_pi

/-- The loop of `PageRank` in `double` arithmetic, run for `k` more rounds. -/
def PageRank_loop_double (G : Graph Double) : Nat → List Double → Option (List Double)
  | 0, pi => some pi
  | k + 1, pi =>
    match PageRank_round_double G pi with
    | none => none
    | some pi' => PageRank_loop_double G k pi'

/-- The function `PageRank` (source lines 177-213) in `double` arithmetic. -/
def PageRank_double (G : Graph Double) (pi : List Double) (iterations : Int) :
    Option (List Double) :=
  PageRank_loop_double G iterations.toNat pi

/-- The start vector of `main` (source line 40) in `double` arithmetic: `n` entries
`1.0/n`. -/
def initial_pi_double (n : Int) : Option (List Double) :=
  match Double.div (Double.ofInt 1) (Double.ofInt n) with
  | none => none
  | some v => some (List.replicate n.toNat v)

/-! ## Notions used to state the properties -/

/-- The precondition on the edge list: every `src` and `dest` lies in `[0, n)`. -/
def edges_in_range (n : Int) (E : List (Int × Int)) : Prop :=
  ∀ e ∈ E, (0 ≤ e.1 ∧ e.1 < n) ∧ (0 ≤ e.2 ∧ e.2 < n)

instance (n : Int) (E : List (Int × Int)) : Decidable (edges_in_range n E) := by
  unfold edges_in_range; infer_instance

/-- The outdegree of `src`: the number of edges of the list whose source is `src`. -/
def outdeg (E : List (Int × Int)) (src : Int) : Nat :=
  E.countP (fun e => e.1 = src)


/-- The keys of a map, in iteration order. -/
def keys {K : Type} (m : Row K) : List Int := m.map Prod.fst

/-- The sum over all rows `dest` of the entries `G[dest][src]`, an absent entry counting
as zero: the mass that vertex `src` hands on in one multiplication. -/
def column_sum {K : Type} [Field K] (G : Graph K) (src : Int) : K :=
  (G.map (fun row => (find row src).getD 0)).sum

/-- The value that the inner loop of the multiplication adds up for one row, when every
read `pi[i]` is in range. -/
def row_value {K : Type} [Field K] (pi : List K) (row : Row K) : K :=
  (row.map (fun e => (vec_get pi e.1).getD 0 * e.2)).sum

/-- The row-normalized hyperlink matrix `H` of the Google matrix, with the uniform row of
a vertex without outgoing edge: `H[src][dest]` is `1/outdeg[src]` if `src` links to
`dest`, `1/n` if `src` has no outgoing edge, and `0` otherwise. -/
def hyperlink_matrix {K : Type} [Field K] (n : Int) (E : List (Int × Int))
    (src dest : Int) : K :=
  if (src, dest) ∈ E then 1 / (outdeg E src : K)
  else if outdeg E src = 0 then 1 / (n : K) else 0

/-- The Google matrix `alpha*H + (1-alpha)/n * J`, with `J` the all-ones matrix. -/
def google_matrix {K : Type} [Field K] (n : Int) (E : List (Int × Int)) (alpha : K)
    (src dest : Int) : K :=
  alpha * hyperlink_matrix n E src dest + (1 - alpha) / (n : K)

/-- The edges `(i, (i+1) mod n)` for `i = 0 .. n-1` of the directed `n`-cycle. -/
def cycle_edges (n : Nat) : List (Int × Int) :=
  (List.range n).map (fun i : Nat => (Int.ofNat i, Int.ofNat ((i + 1) % n)))

/-- The L1 distance of two vectors: the sum of the absolute differences of their
entries. -/
def l1_dist {K : Type} [LinearOrderedField K] (p q : List K) : K :=
  (List.zipWith (fun a b => |a - b|) p q).sum

/-- A probability vector of length `n`: `n` non-negative entries that sum to one. -/
def probability_vector {K : Type} [LinearOrderedField K] (n : Nat) (pi : List K) : Prop :=
  pi.length = n ∧ (∀ x ∈ pi, 0 ≤ x) ∧ pi.sum = 1

/-- What the iteration needs of `G`: it has `n` rows, every stored key lies in `[0, n)`,
every stored weight is positive, and every vertex has an entry in some row. -/
def positive_columns {K : Type} [LinearOrderedField K] (n : Nat) (G : Graph K) : Prop :=
  G.length = n ∧ (∀ row ∈ G, ∀ e ∈ row, (0 ≤ e.1 ∧ e.1 < (n : Int)) ∧ 0 < e.2) ∧
    ∀ s : Int, 0 ≤ s → s < (n : Int) → ∃ row ∈ G, ∃ w, (s, w) ∈ row

/-- The first entry after one round on scenario B (two vertices, the edge `(0,1)`,
`alpha = 17/20`) from the vector `(x, 1-x)`, see `scenario_B_round`. -/
def scenario_B_step {K : Type} [Field K] (x : K) : K :=
  20 * (1 - x) / (40 - 3 * x)

/-- The dense matrix that `G` stores sparsely: `M[i][j]` is the entry `G[j][i]` if it is
present and `0` otherwise. -/
def dense_matrix {K : Type} [Field K] (G : Graph K) (i j : Int) : K :=
  (entry G j i).getD 0

/-- Entry `j` of the dense vector-matrix product `pi · M`: the sum over all `i` in `[0,n)`
of `pi[i] * M[i][j]`. -/
def dense_product {K : Type} [Field K] (n : Nat) (pi : List K) (G : Graph K) (j : Nat) : K :=
  Finset.sum (Finset.range n) (fun i => pi.getD i 0 * dense_matrix G (i : Int) (j : Int))

/-! ## Vectors with checked access -/

section Vectors

variable {α : Type}

theorem vec_get_eq_some_iff (v : List α) (i : Int) (x : α) :
    vec_get v i = some x ↔ 0 ≤ i ∧ v[i.toNat]? = some x := by
  unfold vec_get
  by_cases h : i < 0
  · simp [h]
  · simp [h, not_lt.mp h]

theorem vec_get_natCast (v : List α) (i : Nat) : vec_get v (i : Int) = v[i]? := by
  simp [vec_get]

theorem vec_get_in_range (v : List α) (i : Int) (h0 : 0 ≤ i) (h1 : i < v.length) :
    ∃ x, vec_get v i = some x := by
  have hlt : i.toNat < v.length := by omega
  exact ⟨v[i.toNat], by simp [vec_get, not_lt.mpr h0, List.getElem?_eq_getElem hlt]⟩

theorem vec_get_range_of_some (v : List α) (i : Int) (x : α) (h : vec_get v i = some x) :
    0 ≤ i ∧ i < v.length := by
  rw [vec_get_eq_some_iff] at h
  obtain ⟨h0, h1⟩ := h
  obtain ⟨hlt, -⟩ := List.getElem?_eq_some.mp h1
  exact ⟨h0, by omega⟩

theorem vec_get_eq_none_of_out (v : List α) (i : Int) (h : ¬ (0 ≤ i ∧ i < v.length)) :
    vec_get v i = none := by
  cases hx : vec_get v i with
  | none => rfl
  | some x => exact absurd (vec_get_range_of_some v i x hx) h

theorem vec_get_set (v : List α) (i : Nat) (a : α) (j : Int) :
    vec_get (v.set i a) j =
      if j = (i : Int) ∧ i < v.length then some a else vec_get v j := by
  unfold vec_get
  by_cases hj : j < 0
  · have : ¬ (j = (i : Int)) := by omega
    simp [hj, this]
  · simp only [hj, if_false]
    rw [List.getElem?_set]
    by_cases hji : j = (i : Int)
    · subst hji
      simp only [Int.toNat_ofNat, if_true, true_and]
      by_cases hlt : i < v.length
      · simp [hlt]
      · simp [hlt, List.getElem?_eq_none (not_lt.mp hlt)]
    · have hij : ¬ i = j.toNat := by omega
      simp [hij, hji]

theorem vec_update_in_range (f : α → α) (v : List α) (i : Int) (h0 : 0 ≤ i)
    (h1 : i < v.length) :
    ∃ x, vec_get v i = some x ∧ vec_update f v i = some (v.set i.toNat (f x)) := by
  obtain ⟨x, hx⟩ := vec_get_in_range v i h0 h1
  exact ⟨x, hx, by simp [vec_update, hx]⟩

end Vectors

/-! ## The association-list model of `unordered_map` -/

section Maps

variable {K : Type}

theorem find_assign (m : Row K) (k : Int) (v : K) (k' : Int) :
    find (assign m k v) k' = if k = k' then some v else find m k' := by
  induction m with
  | nil => simp [assign, find]
  | cons e rest ih =>
    obtain ⟨a, b⟩ := e
    by_cases hak : a = k
    · subst hak
      by_cases hk : a = k' <;> simp [assign, find, hk]
    · by_cases hk : k = k'
      · subst hk
        simp [assign, find, hak, ih]
      · simp only [assign, hak, if_false, find, ih, hk]

theorem find_eq_none_iff (m : Row K) (k : Int) : find m k = none ↔ k ∉ keys m := by
  induction m with
  | nil => simp [find, keys]
  | cons e rest ih =>
    obtain ⟨a, b⟩ := e
    by_cases hak : a = k
    · simp [find, keys, hak]
    · have hka : ¬ k = a := fun h => hak h.symm
      simp only [find, hak, if_false, ih]
      simp [keys, hka]

theorem mem_keys_iff_find (m : Row K) (k : Int) : k ∈ keys m ↔ ∃ v, find m k = some v := by
  rw [← not_iff_not, ← find_eq_none_iff]
  cases find m k <;> simp

theorem mem_of_find (m : Row K) (k : Int) (v : K) (h : find m k = some v) : (k, v) ∈ m := by
  induction m with
  | nil => simp [find] at h
  | cons e rest ih =>
    obtain ⟨a, b⟩ := e
    by_cases hak : a = k
    · simp [find, hak] at h
      simp [hak, h]
    · simp only [find, hak, if_false] at h
      exact List.mem_cons_of_mem _ (ih h)

theorem find_of_mem (m : Row K) (hm : (keys m).Nodup) (k : Int) (v : K) (h : (k, v) ∈ m) :
    find m k = some v := by
  induction m with
  | nil => simp at h
  | cons e rest ih =>
    obtain ⟨a, b⟩ := e
    simp only [keys, List.map_cons, List.nodup_cons] at hm
    rcases List.mem_cons.mp h with h | h
    · simp only [Prod.mk.injEq] at h
      simp [find, h.1, h.2]
    · have hk : k ∈ rest.map Prod.fst := List.mem_map.mpr ⟨(k, v), h, rfl⟩
      have hak : ¬ a = k := fun e => hm.1 (e ▸ hk)
      simp only [find, hak, if_false]
      exact ih hm.2 h

theorem mem_keys_assign (m : Row K) (k : Int) (v : K) (k' : Int) :
    k' ∈ keys (assign m k v) ↔ k' = k ∨ k' ∈ keys m := by
  rw [mem_keys_iff_find, mem_keys_iff_find, find_assign]
  by_cases h : k = k'
  · simp [h]
  · have : ¬ k' = k := fun e => h e.symm
    simp [h, this]

theorem nodup_keys_assign (m : Row K) (k : Int) (v : K) (hm : (keys m).Nodup) :
    (keys (assign m k v)).Nodup := by
  induction m with
  | nil => simp [assign, keys]
  | cons e rest ih =>
    obtain ⟨a, b⟩ := e
    have hm' := hm
    simp only [keys, List.map_cons, List.nodup_cons] at hm'
    by_cases hak : a = k
    · simpa [assign, hak, keys] using hm
    · simp only [assign, hak, if_false, keys, List.map_cons, List.nodup_cons]
      refine ⟨?_, ih hm'.2⟩
      intro hmem
      rcases (mem_keys_assign rest k v a).mp hmem with h | h
      · exact hak h
      · exact hm'.1 h

end Maps

/-! ## Entries of the sparse matrix through the passes of `build_google_graph` -/

section Passes

variable {K : Type}

theorem entry_out_of_range (G : Graph K) (d s : Int) (h : ¬ (0 ≤ d ∧ d < G.length)) :
    entry G d s = none := by
  simp [entry, vec_get_eq_none_of_out G d h]

theorem entry_vec_update_assign (G G' : Graph K) (dest src : Int) (v : K)
    (h : vec_update (fun row => assign row src v) G dest = some G') (d s : Int) :
    entry G' d s = if d = dest ∧ s = src then some v else entry G d s := by
  unfold vec_update at h
  cases hrow : vec_get G dest with
  | none => simp [hrow] at h
  | some row =>
    simp only [hrow, Option.some.injEq] at h
    obtain ⟨h0, h1⟩ := vec_get_range_of_some G dest row hrow
    have hcast : ((dest.toNat : Nat) : Int) = dest := Int.toNat_of_nonneg h0
    have hlt : dest.toNat < G.length := by omega
    subst h
    unfold entry
    rw [vec_get_set, hcast]
    by_cases hd : d = dest
    · subst hd
      simp only [true_and, hlt, and_true, if_true, hrow, find_assign]
      by_cases hs : s = src
      · simp [hs]
      · have : ¬ src = s := fun e => hs e.symm
        simp [hs, this]
    · simp [hd]

theorem for_each_row_length {α β : Type} (body : α → Option β) :
    ∀ (G : List α) (G' : List β), for_each_row body G = some G' → G'.length = G.length := by
  intro G
  induction G with
  | nil => intro G' h; simp [for_each_row] at h; simp [← h]
  | cons row rows ih =>
    intro G' h
    unfold for_each_row at h
    cases hr : body row with
    | none => simp [hr] at h
    | some r =>
      cases hrs : for_each_row body rows with
      | none => simp [hr, hrs] at h
      | some rs =>
        simp [hr, hrs] at h
        simp [← h, ih rs hrs]

theorem for_each_row_getElem? {α β : Type} (body : α → Option β) :
    ∀ (G : List α) (G' : List β), for_each_row body G = some G' →
      ∀ i : Nat, G'[i]? = (G[i]?).bind body := by
  intro G
  induction G with
  | nil => intro G' h i; simp [for_each_row] at h; simp [h]
  | cons row rows ih =>
    intro G' h i
    unfold for_each_row at h
    cases hr : body row with
    | none => simp [hr] at h
    | some r =>
      cases hrs : for_each_row body rows with
      | none => simp [hr, hrs] at h
      | some rs =>
        simp [hr, hrs] at h
        subst h
        cases i with
        | zero => simp [hr]
        | succ i => simpa using ih rs hrs i

theorem for_each_row_succeeds {α β : Type} (body : α → Option β) :
    ∀ (G : List α), (∀ row ∈ G, ∃ r, body row = some r) →
      ∃ G', for_each_row body G = some G' := by
  intro G
  induction G with
  | nil => intro _; exact ⟨[], rfl⟩
  | cons row rows ih =>
    intro h
    obtain ⟨r, hr⟩ := h row (List.mem_cons_self _ _)
    obtain ⟨rs, hrs⟩ := ih (fun row' hrow' => h row' (List.mem_cons_of_mem _ hrow'))
    exact ⟨r :: rs, by simp [for_each_row, hr, hrs]⟩

theorem for_each_row_mem {α β : Type} (body : α → Option β) (G : List α) (G' : List β)
    (h : for_each_row body G = some G') (r : β) (hr : r ∈ G') :
    ∃ row ∈ G, body row = some r := by
  obtain ⟨i, hi, rfl⟩ := List.getElem_of_mem hr
  have h1 := for_each_row_getElem? body G G' h i
  rw [List.getElem?_eq_getElem hi] at h1
  cases hrow : G[i]? with
  | none => simp [hrow] at h1
  | some row =>
    simp [hrow] at h1
    exact ⟨row, List.getElem?_mem hrow, h1.symm⟩

theorem outdeg_cons (src dest : Int) (E : List (Int × Int)) (s : Int) :
    outdeg ((src, dest) :: E) s = outdeg E s + if src = s then 1 else 0 := by
  simp [outdeg, List.countP_cons]

theorem outdeg_pos_of_mem (E : List (Int × Int)) (s d : Int) (h : (s, d) ∈ E) :
    0 < outdeg E s := by
  unfold outdeg
  exact List.countP_pos_iff.mpr ⟨(s, d), h, by simp⟩

theorem exists_mem_of_outdeg_pos (E : List (Int × Int)) (s : Int) (h : 0 < outdeg E s) :
    ∃ d, (s, d) ∈ E := by
  unfold outdeg at h
  obtain ⟨e, he, hs⟩ := List.countP_pos_iff.mp h
  obtain ⟨a, b⟩ := e
  simp only [decide_eq_true_eq] at hs
  exact ⟨b, hs ▸ he⟩

theorem drain_spec [Field K] (n : Nat) (E : List (Int × Int)) (hE : edges_in_range n E) :
    ∀ (G : Graph K) (outlinks : List Nat), G.length = n → outlinks.length = n →
      (∀ row ∈ G, (keys row).Nodup) →
      ∃ G' outlinks', drain E G outlinks = some ([], G', outlinks') ∧
        G'.length = n ∧ outlinks'.length = n ∧ (∀ row ∈ G', (keys row).Nodup) ∧
        (∀ d s : Int, entry G' d s = if (s, d) ∈ E then some (-1) else entry G d s) ∧
        (∀ (s : Int) (x : Nat), vec_get outlinks s = some x →
          vec_get outlinks' s = some (x + outdeg E s)) := by
  induction E with
  | nil =>
    intro G outlinks hG ho hnd
    exact ⟨G, outlinks, rfl, hG, ho, hnd, by simp, by simp [outdeg]⟩
  | cons e E ih =>
    obtain ⟨src, dest⟩ := e
    intro G outlinks hG ho hnd
    have hin := hE (src, dest) (List.mem_cons_self _ _)
    simp only at hin
    obtain ⟨⟨hs0, hs1⟩, ⟨hd0, hd1⟩⟩ := hin
    obtain ⟨row, hrow, hG1⟩ :=
      vec_update_in_range (fun row => assign row src (-1 : K)) G dest hd0 (by omega)
    obtain ⟨c, hc, ho1⟩ :=
      vec_update_in_range (fun c => c + 1) outlinks src hs0 (by omega)
    have hrowmem : row ∈ G := by
      rw [vec_get_eq_some_iff] at hrow
      exact List.getElem?_mem hrow.2
    have hnd1 : ∀ r ∈ G.set dest.toNat (assign row src (-1 : K)), (keys r).Nodup := by
      intro r hr
      rcases List.mem_or_eq_of_mem_set hr with h | h
      · exact hnd r h
      · subst h; exact nodup_keys_assign row src _ (hnd row hrowmem)
    obtain ⟨G', outlinks', hdr, hG', ho', hnd', hent, hout⟩ :=
      ih (fun e he => hE e (List.mem_cons_of_mem _ he))
        (G.set dest.toNat (assign row src (-1 : K))) (outlinks.set src.toNat (c + 1))
        (by simp [hG]) (by simp [ho]) hnd1
    refine ⟨G', outlinks', ?_, hG', ho', hnd', ?_, ?_⟩
    · simp [drain, hG1, ho1, hdr]
    · intro d s
      rw [hent d s, entry_vec_update_assign G _ dest src (-1) hG1 d s]
      by_cases hmem : (s, d) ∈ E
      · simp [hmem]
      · by_cases heq : d = dest ∧ s = src
        · simp [heq.1, heq.2]
        · have : ¬ (s = src ∧ d = dest) := fun h => heq ⟨h.2, h.1⟩
          simp [hmem, heq, this]
    · intro s x hx
      have hcast : ((src.toNat : Nat) : Int) = src := Int.toNat_of_nonneg hs0
      have hlt : src.toNat < outlinks.length := by omega
      have h1 : vec_get (outlinks.set src.toNat (c + 1)) s =
          some (x + if src = s then 1 else 0) := by
        rw [vec_get_set, hcast]
        by_cases hss : s = src
        · subst hss
          rw [hc] at hx
          simp only [Option.some.injEq] at hx
          simp [hlt, hx]
        · have : ¬ src = s := fun e => hss e.symm
          simp [hss, this, hx]
      rw [hout s _ h1, outdeg_cons]
      congr 1
      omega

theorem normalize_row_spec [Field K] (outlinks : List Nat) :
    ∀ (row row' : Row K), normalize_row outlinks row = some row' →
      keys row' = keys row ∧
      ∀ s : Int, find row' s =
        (find row s).bind (fun _ => (vec_get outlinks s).map (fun c => 1 / (c : K))) := by
  intro row
  induction row with
  | nil =>
    intro row' h
    simp [normalize_row] at h
    subst h
    simp [find]
  | cons e rest ih =>
    obtain ⟨a, b⟩ := e
    intro row' h
    unfold normalize_row at h
    cases hc : vec_get outlinks a with
    | none => simp [hc] at h
    | some c =>
      cases hr : normalize_row outlinks rest with
      | none => simp [hc, hr] at h
      | some rest' =>
        simp [hc, hr] at h
        subst h
        obtain ⟨hk, hf⟩ := ih rest' hr
        refine ⟨by simpa [keys] using hk, ?_⟩
        intro s
        by_cases has : a = s
        · subst has
          simp [find, hc]
        · simp [find, has, hf s]

theorem normalize_row_succeeds [Field K] (outlinks : List Nat) :
    ∀ (row : Row K), (∀ k ∈ keys row, ∃ c, vec_get outlinks k = some c) →
      ∃ row', normalize_row outlinks row = some row' := by
  intro row
  induction row with
  | nil => intro _; exact ⟨[], rfl⟩
  | cons e rest ih =>
    obtain ⟨a, b⟩ := e
    intro h
    obtain ⟨c, hc⟩ := h a (by simp [keys])
    obtain ⟨rest', hr⟩ := ih (fun k hk => h k (by
      simp only [keys, List.map_cons, List.mem_cons]
      exact Or.inr hk))
    exact ⟨(a, 1 / (c : K)) :: rest', by simp [normalize_row, hc, hr]⟩

theorem vec_get_map {α β : Type} (f : α → β) (v : List α) (i : Int) :
    vec_get (v.map f) i = (vec_get v i).map f := by
  unfold vec_get
  by_cases h : i < 0 <;> simp [h]

theorem normalize_links_entry [Field K] (outlinks : List Nat) (G G' : Graph K)
    (h : normalize_links outlinks G = some G') (d s : Int) :
    entry G' d s =
      (entry G d s).bind (fun _ => (vec_get outlinks s).map (fun c => 1 / (c : K))) := by
  unfold normalize_links at h
  have hlen := for_each_row_length _ G G' h
  have hget := for_each_row_getElem? _ G G' h d.toNat
  unfold entry vec_get
  by_cases hd : d < 0
  · simp [hd]
  · simp only [hd, if_false]
    cases hrow : G[d.toNat]? with
    | none =>
      rw [hrow] at hget
      simp at hget
      simp [List.getElem?_eq_none hget]
    | some row =>
      obtain ⟨hlt, -⟩ := List.getElem?_eq_some.mp hrow
      have hlt' : d.toNat < G'.length := by omega
      rw [hrow, List.getElem?_eq_getElem hlt'] at hget
      simp only [Option.some_bind] at hget
      rw [List.getElem?_eq_getElem hlt']
      exact (normalize_row_spec outlinks row _ hget.symm).2 s

theorem normalize_links_nodup [Field K] (outlinks : List Nat) (G G' : Graph K)
    (h : normalize_links outlinks G = some G') (hnd : ∀ row ∈ G, (keys row).Nodup) :
    ∀ row ∈ G', (keys row).Nodup := by
  intro r hr
  obtain ⟨row, hrow, hbody⟩ := for_each_row_mem _ G G' h r hr
  rw [(normalize_row_spec outlinks row r hbody).1]
  exact hnd row hrow

theorem entry_fill_column (src : Int) (v : K) (G : Graph K) (d s : Int) :
    entry (fill_column src v G) d s =
      if (0 ≤ d ∧ d < G.length) ∧ s = src then some v else entry G d s := by
  unfold entry fill_column
  rw [vec_get_map]
  by_cases hd : 0 ≤ d ∧ d < G.length
  · obtain ⟨row, hrow⟩ := vec_get_in_range G d hd.1 hd.2
    simp only [hrow, Option.map_some', find_assign, hd, true_and]
    by_cases hs : s = src
    · simp [hs]
    · have : ¬ src = s := fun e => hs e.symm
      simp [hs, this]
  · simp [vec_get_eq_none_of_out G d hd, hd]

theorem fill_column_nodup (src : Int) (v : K) (G : Graph K)
    (hnd : ∀ row ∈ G, (keys row).Nodup) : ∀ row ∈ fill_column src v G, (keys row).Nodup := by
  intro r hr
  obtain ⟨row, hrow, rfl⟩ := List.mem_map.mp hr
  exact nodup_keys_assign row src v (hnd row hrow)

theorem dangling_fill_length (outlinks : List Nat) (v : K) (m : Nat) (G : Graph K) :
    (dangling_fill outlinks v m G).length = G.length := by
  induction m with
  | zero => rfl
  | succ m ih =>
    simp only [dangling_fill]
    split <;> simp [fill_column, ih]

theorem dangling_fill_nodup (outlinks : List Nat) (v : K) (m : Nat) (G : Graph K)
    (hnd : ∀ row ∈ G, (keys row).Nodup) :
    ∀ row ∈ dangling_fill outlinks v m G, (keys row).Nodup := by
  induction m with
  | zero => exact hnd
  | succ m ih =>
    simp only [dangling_fill]
    split
    · exact fill_column_nodup _ _ _ ih
    · exact ih

theorem entry_dangling_fill (outlinks : List Nat) (v : K) (m : Nat) (G : Graph K)
    (d s : Int) :
    entry (dangling_fill outlinks v m G) d s =
      if (0 ≤ d ∧ d < G.length) ∧ (0 ≤ s ∧ s < m) ∧ vec_get outlinks s = some 0
      then some v else entry G d s := by
  induction m with
  | zero =>
    have : ¬ (0 ≤ s ∧ s < (0 : Int)) := by omega
    simp [dangling_fill, this]
  | succ m ih =>
    simp only [dangling_fill]
    by_cases hm : outlinks[m]? = some 0
    · simp only [hm, if_true]
      rw [entry_fill_column, dangling_fill_length, ih]
      by_cases hd : 0 ≤ d ∧ d < G.length
      · by_cases hs : s = (m : Int)
        · subst hs
          have : (0 : Int) ≤ (m : Int) ∧ (m : Int) < ((m + 1 : Nat) : Int) := by omega
          simp [hd, this, vec_get_natCast, hm]
        · have h1 : (0 ≤ s ∧ s < ((m + 1 : Nat) : Int)) ↔ (0 ≤ s ∧ s < (m : Int)) := by omega
          simp only [hd, hs, and_false, if_false, true_and, h1]
      · simp [hd]
    · simp only [hm, if_false]
      rw [ih]
      by_cases hs : s = (m : Int)
      · subst hs
        have h2 : ¬ ((m : Int) < (m : Int)) := by omega
        simp [vec_get_natCast, hm, h2]
      · have h1 : (0 ≤ s ∧ s < ((m + 1 : Nat) : Int)) ↔ (0 ≤ s ∧ s < (m : Int)) := by omega
        simp only [h1]

theorem find_map_values (f : K → K) (row : Row K) (s : Int) :
    find (row.map (fun e => (e.1, f e.2))) s = (find row s).map f := by
  induction row with
  | nil => simp [find]
  | cons e rest ih =>
    obtain ⟨a, b⟩ := e
    by_cases has : a = s <;> simp [find, has, ih]

theorem keys_map_values (f : K → K) (row : Row K) :
    keys (row.map (fun e => (e.1, f e.2))) = keys row := by
  simp [keys, List.map_map, Function.comp_def]

theorem entry_damping [Field K] (alpha jump : K) (G : Graph K) (d s : Int) :
    entry (damping alpha jump G) d s = (entry G d s).map (fun w => alpha * w + jump) := by
  unfold entry damping
  rw [vec_get_map]
  cases vec_get G d with
  | none => rfl
  | some row => exact find_map_values (fun w => alpha * w + jump) row s

theorem damping_nodup [Field K] (alpha jump : K) (G : Graph K)
    (hnd : ∀ row ∈ G, (keys row).Nodup) :
    ∀ row ∈ damping alpha jump G, (keys row).Nodup := by
  intro r hr
  obtain ⟨row, hrow, rfl⟩ := List.mem_map.mp hr
  rw [keys_map_values (fun w => alpha * w + jump) row]
  exact hnd row hrow

theorem entry_replicate_nil (n : Nat) (d s : Int) :
    entry (List.replicate n ([] : Row K)) d s = none := by
  unfold entry
  cases h : vec_get (List.replicate n ([] : Row K)) d with
  | none => rfl
  | some row =>
    rw [vec_get_eq_some_iff] at h
    have := List.getElem?_mem h.2
    rw [List.eq_of_mem_replicate this]
    rfl

theorem entry_of_mem_row (G : Graph K) (row : Row K) (hrow : row ∈ G) (k : Int)
    (hk : k ∈ keys row) : ∃ (d : Int) (w : K), entry G d k = some w := by
  obtain ⟨i, hi⟩ := List.mem_iff_getElem?.mp hrow
  obtain ⟨w, hw⟩ := (mem_keys_iff_find row k).mp hk
  exact ⟨(i : Int), w, by simp [entry, vec_get_natCast, hi, hw]⟩

/-- The result of `build_google_graph` on an in-range edge list, entry by entry: the call
returns, the edge list is left empty, `G` has `n` rows with pairwise distinct keys, a
column of a vertex without outgoing edge holds `alpha*(1/n) + (1-alpha)*(1/n)` in every
row, and a column of a vertex with outgoing edges holds
`alpha*(1/outdeg) + (1-alpha)*(1/n)` exactly in the rows it links to. -/
theorem build_google_graph_spec [Field K] (n : Nat) (E : List (Int × Int)) (alpha : K)
    (hE : edges_in_range n E) :
    ∃ G : Graph K, build_google_graph (n : Int) E alpha = some ([], G) ∧ G.length = n ∧
      (∀ row ∈ G, (keys row).Nodup) ∧
      ∀ d s : Int, entry G d s =
        if (0 ≤ d ∧ d < n) ∧ (0 ≤ s ∧ s < n) then
          if outdeg E s = 0 then some (alpha * (1 / (n : K)) + (1 - alpha) * (1 / (n : K)))
          else if (s, d) ∈ E then
            some (alpha * (1 / (outdeg E s : K)) + (1 - alpha) * (1 / (n : K)))
          else none
        else none := by
  obtain ⟨G1, outlinks, hdr, hG1, ho, hnd1, hent1, hout⟩ :=
    drain_spec n E hE (List.replicate n ([] : Row K)) (List.replicate n 0)
      (by simp) (by simp) (by
        intro row hrow
        rw [List.eq_of_mem_replicate hrow]
        simp [keys])
  have hout' : ∀ s : Int, 0 ≤ s → s < n → vec_get outlinks s = some (outdeg E s) := by
    intro s h0 h1
    have hlt : s.toNat < n := by omega
    have := hout s 0 (by simp [vec_get, not_lt.mpr h0, hlt])
    simpa using this
  have hent1' : ∀ d s : Int, entry G1 d s = if (s, d) ∈ E then some (-1) else none := by
    intro d s
    rw [hent1, entry_replicate_nil]
  obtain ⟨G2, hG2⟩ : ∃ G2, normalize_links outlinks G1 = some G2 := by
    apply for_each_row_succeeds
    intro row hrow
    apply normalize_row_succeeds
    intro k hk
    obtain ⟨d, w, hw⟩ := entry_of_mem_row G1 row hrow k hk
    rw [hent1'] at hw
    by_cases hmem : (k, d) ∈ E
    · have := (hE (k, d) hmem).1
      exact ⟨_, hout' k this.1 this.2⟩
    · simp [hmem] at hw
  have hlen2 : G2.length = n := by
    rw [← hG1]
    exact for_each_row_length _ G1 G2 hG2
  have hnd2 := normalize_links_nodup outlinks G1 G2 hG2 hnd1
  refine ⟨damping alpha ((1 - alpha) * (1 / (n : K)))
      (dangling_fill outlinks (1 / (n : K)) n G2), ?_, ?_, ?_, ?_⟩
  · have hn : ¬ ((n : Int) < 0) := by omega
    simp [build_google_graph, hn, hdr, hG2]
  · simp [damping, dangling_fill_length, hlen2]
  · exact damping_nodup _ _ _ (dangling_fill_nodup _ _ _ _ hnd2)
  · intro d s
    rw [entry_damping, entry_dangling_fill, normalize_links_entry outlinks G1 G2 hG2,
      hent1', hlen2]
    by_cases hd : 0 ≤ d ∧ d < (n : Int)
    · by_cases hs : 0 ≤ s ∧ s < (n : Int)
      · rw [hout' s hs.1 hs.2]
        by_cases hz : outdeg E s = 0
        · simp [hd, hs, hz]
        · by_cases hmem : (s, d) ∈ E
          · simp [hd, hs, hz, hmem]
          · simp [hd, hs, hz, hmem]
      · have hmem : (s, d) ∉ E := fun h => hs (hE (s, d) h).1
        simp [hd, hs, hmem]
    · have hmem : (s, d) ∉ E := fun h => hd (hE (s, d) h).2
      simp [hd, hmem]

end Passes

/-! ## The rounds of `PageRank` -/

section Iteration

variable {K : Type}

theorem row_sum_eq [Field K] (pi : List K) :
    ∀ (row : Row K) (acc : K), (∀ k ∈ keys row, ∃ p, vec_get pi k = some p) →
      row_sum pi row acc = some (acc + row_value pi row) := by
  intro row
  induction row with
  | nil => intro acc _; simp [row_sum, row_value]
  | cons e rest ih =>
    obtain ⟨i, w⟩ := e
    intro acc h
    obtain ⟨p, hp⟩ := h i (by simp [keys])
    have hrest : ∀ k ∈ keys rest, ∃ p, vec_get pi k = some p := fun k hk =>
      h k (by simp only [keys, List.map_cons, List.mem_cons]; exact Or.inr hk)
    simp only [row_sum, hp, ih (acc + p * w) hrest]
    simp [row_value, hp, add_assoc]

theorem next_vector_eq [Field K] (pi : List K) :
    ∀ G : Graph K, (∀ row ∈ G, ∀ k ∈ keys row, ∃ p, vec_get pi k = some p) →
      next_vector pi G = some (G.map (row_value pi)) := by
  intro G
  induction G with
  | nil => intro _; rfl
  | cons row rows ih =>
    intro h
    have h1 := row_sum_eq pi row 0 (h row (List.mem_cons_self _ _))
    have h2 := ih (fun r hr => h r (List.mem_cons_of_mem _ hr))
    unfold next_vector at h2 ⊢
    simp [for_each_row, h1, h2]

theorem foldl_add_eq [Field K] (l : List K) (acc : K) :
    l.foldl (fun a x => a + x) acc = acc + l.sum := by
  induction l generalizing acc with
  | nil => simp
  | cons x xs ih => simp [ih, add_assoc]

theorem L1_sum_eq_sum [Field K] (l : List K) : L1_sum l = l.sum := by
  simp [L1_sum, foldl_add_eq]

theorem sum_map_div [Field K] (l : List K) (S : K) :
    (l.map (fun x => x / S)).sum = l.sum / S := by
  induction l with
  | nil => simp
  | cons x xs ih => simp [ih, add_div]

theorem PageRank_loop_add [Field K] (G : Graph K) (a b : Nat) :
    ∀ pi : List K,
      PageRank_loop G (a + b) pi = (PageRank_loop G a pi).bind (PageRank_loop G b) := by
  induction a with
  | zero => intro pi; simp [PageRank_loop]
  | succ a ih =>
    intro pi
    rw [Nat.succ_add]
    simp only [PageRank_loop]
    cases PageRank_round G pi with
    | none => rfl
    | some pi' => exact ih pi'

theorem PageRank_loop_succ [Field K] (G : Graph K) (k : Nat) (pi : List K) :
    PageRank_loop G (k + 1) pi = (PageRank_loop G k pi).bind (PageRank_round G) := by
  rw [PageRank_loop_add]
  congr 1
  funext p
  simp only [PageRank_loop]
  cases PageRank_round G p <;> rfl

theorem PageRank_natCast [Field K] (G : Graph K) (pi : List K) (k : Nat) :
    PageRank G pi (k : Int) = PageRank_loop G k pi := by
  simp [PageRank]

theorem vec_get_mem {α : Type} (v : List α) (i : Int) (x : α) (h : vec_get v i = some x) :
    x ∈ v := by
  rw [vec_get_eq_some_iff] at h
  exact List.getElem?_mem h.2

theorem exists_pos_of_probability_vector [LinearOrderedField K] (n : Nat) (pi : List K)
    (hpi : probability_vector n pi) :
    ∃ s : Int, 0 ≤ s ∧ s < (n : Int) ∧ ∃ p, vec_get pi s = some p ∧ 0 < p := by
  obtain ⟨hlen, hnn, hsum⟩ := hpi
  by_contra hcon
  have hzero : ∀ x ∈ pi, x = 0 := by
    intro x hx
    obtain ⟨i, hi⟩ := List.mem_iff_getElem?.mp hx
    obtain ⟨hlt, -⟩ := List.getElem?_eq_some.mp hi
    by_contra hne
    apply hcon
    refine ⟨(i : Int), by omega, by omega, x, by simp [vec_get_natCast, hi], ?_⟩
    exact lt_of_le_of_ne (hnn x hx) (Ne.symm hne)
  rw [List.sum_eq_zero hzero] at hsum
  exact zero_ne_one hsum

/-- One round on a probability vector: the reads are in range, the divisor is positive,
and the result is again a probability vector. -/
theorem round_probability_vector [LinearOrderedField K] (n : Nat) (G : Graph K)
    (pi : List K) (hG : positive_columns n G) (hpi : probability_vector n pi) :
    ∃ next_pi, next_vector pi G = some next_pi ∧ 0 < L1_sum next_pi ∧
      ∃ pi', PageRank_round G pi = some pi' ∧ probability_vector n pi' := by
  obtain ⟨hGlen, hGpos, hGcol⟩ := hG
  have hread : ∀ row ∈ G, ∀ k ∈ keys row, ∃ p, vec_get pi k = some p := by
    intro row hrow k hk
    obtain ⟨e, he, rfl⟩ := List.mem_map.mp hk
    have := (hGpos row hrow e he).1
    exact vec_get_in_range pi e.1 this.1 (by rw [hpi.1]; exact this.2)
  have hnext := next_vector_eq pi G hread
  have hterm : ∀ row ∈ G, ∀ t ∈ row.map (fun e => (vec_get pi e.1).getD 0 * e.2),
      0 ≤ t := by
    intro row hrow t ht
    obtain ⟨e, he, rfl⟩ := List.mem_map.mp ht
    obtain ⟨p, hp⟩ := hread row hrow e.1 (List.mem_map.mpr ⟨e, he, rfl⟩)
    rw [hp]
    exact mul_nonneg (hpi.2.1 p (vec_get_mem pi e.1 p hp)) (le_of_lt (hGpos row hrow e he).2)
  have hnn : ∀ x ∈ G.map (row_value pi), 0 ≤ x := by
    intro x hx
    obtain ⟨row, hrow, rfl⟩ := List.mem_map.mp hx
    exact List.sum_nonneg (hterm row hrow)
  have hpos : 0 < (G.map (row_value pi)).sum := by
    obtain ⟨s, hs0, hs1, p, hp, hppos⟩ := exists_pos_of_probability_vector n pi hpi
    obtain ⟨row, hrow, w, hw⟩ := hGcol s hs0 hs1
    have hwpos : 0 < w := (hGpos row hrow (s, w) hw).2
    have h1 : p * w ≤ row_value pi row := by
      apply List.single_le_sum (hterm row hrow)
      exact List.mem_map.mpr ⟨(s, w), hw, by simp [hp]⟩
    have h2 : row_value pi row ≤ (G.map (row_value pi)).sum :=
      List.single_le_sum hnn _ (List.mem_map.mpr ⟨row, hrow, rfl⟩)
    exact lt_of_lt_of_le (mul_pos hppos hwpos) (le_trans h1 h2)
  refine ⟨G.map (row_value pi), hnext, by rw [L1_sum_eq_sum]; exact hpos, ?_⟩
  refine ⟨(G.map (row_value pi)).map (fun x => x / L1_sum (G.map (row_value pi))),
    by simp only [PageRank_round, hnext], ?_, ?_, ?_⟩
  · simp [hGlen]
  · intro x hx
    obtain ⟨y, hy, rfl⟩ := List.mem_map.mp hx
    rw [L1_sum_eq_sum]
    exact div_nonneg (hnn y hy) (le_of_lt hpos)
  · rw [sum_map_div, L1_sum_eq_sum]
    exact div_self (ne_of_gt hpos)

end Iteration

/-! ## The built graph as seen by the iteration -/

section Built

variable {K : Type}

theorem entry_of_mem [Field K] (G : Graph K) (hnd : ∀ row ∈ G, (keys row).Nodup)
    (i : Nat) (row : Row K) (hi : G[i]? = some row) (k : Int) (w : K) (hk : (k, w) ∈ row) :
    entry G (i : Int) k = some w := by
  simp only [entry, vec_get_natCast, hi]
  exact find_of_mem row (hnd row (List.getElem?_mem hi)) k w hk

theorem mem_of_entry [Field K] (G : Graph K) (d s : Int) (w : K)
    (h : entry G d s = some w) : ∃ row ∈ G, (s, w) ∈ row := by
  unfold entry at h
  cases hrow : vec_get G d with
  | none => simp [hrow] at h
  | some row =>
    simp only [hrow] at h
    exact ⟨row, vec_get_mem G d row hrow, mem_of_find row s w h⟩

theorem weight_pos [LinearOrderedField K] (n c : Nat) (hn : 0 < n) (alpha : K)
    (h0 : 0 < alpha) (h1 : alpha < 1) :
    0 < alpha * (1 / (c : K)) + (1 - alpha) * (1 / (n : K)) := by
  have hn' : (0 : K) < (n : K) := Nat.cast_pos.mpr hn
  have hc : (0 : K) ≤ 1 / (c : K) := by positivity
  have h2 : 0 < (1 - alpha) * (1 / (n : K)) := mul_pos (by linarith) (by positivity)
  have h3 : 0 ≤ alpha * (1 / (c : K)) := mul_nonneg (le_of_lt h0) hc
  linarith

/-- For a damping factor in `(0,1)` the graph built from an in-range edge list on `n > 0`
vertices has positive weights only and an entry in every column. -/
theorem build_google_graph_positive [LinearOrderedField K] (n : Nat) (hn : 0 < n)
    (alpha : K) (h0 : 0 < alpha) (h1 : alpha < 1) (E : List (Int × Int))
    (hE : edges_in_range n E) :
    ∃ G : Graph K, build_google_graph (n : Int) E alpha = some ([], G) ∧
      positive_columns n G := by
  obtain ⟨G, hbuild, hlen, hnd, hent⟩ := build_google_graph_spec n E alpha hE
  refine ⟨G, hbuild, hlen, ?_, ?_⟩
  · intro row hrow e he
    obtain ⟨k, w⟩ := e
    obtain ⟨i, hi⟩ := List.mem_iff_getElem?.mp hrow
    have h := entry_of_mem G hnd i row hi k w he
    rw [hent] at h
    by_cases hr : (0 ≤ (i : Int) ∧ (i : Int) < n) ∧ (0 ≤ k ∧ k < n)
    · simp only [hr, and_self, if_true] at h
      refine ⟨hr.2, ?_⟩
      by_cases hz : outdeg E k = 0
      · simp only [hz, if_true, Option.some.injEq] at h
        rw [← h]
        exact weight_pos n n hn alpha h0 h1
      · by_cases hmem : (k, (i : Int)) ∈ E
        · simp only [hz, hmem, if_true, if_false, Option.some.injEq] at h
          rw [← h]
          exact weight_pos n (outdeg E k) hn alpha h0 h1
        · simp [hz, hmem] at h
    · rw [if_neg hr] at h
      exact absurd h (by simp)
  · intro s hs0 hs1
    by_cases hz : outdeg E s = 0
    · have h := hent 0 s
      have hr : (0 ≤ (0 : Int) ∧ (0 : Int) < n) ∧ (0 ≤ s ∧ s < n) :=
        ⟨⟨le_refl _, by omega⟩, hs0, hs1⟩
      simp only [hr, and_self, if_true, hz] at h
      obtain ⟨row, hrow, hmem⟩ := mem_of_entry G 0 s _ h
      exact ⟨row, hrow, _, hmem⟩
    · obtain ⟨d, hd⟩ := exists_mem_of_outdeg_pos E s (Nat.pos_of_ne_zero hz)
      have h := hent d s
      have hr : (0 ≤ d ∧ d < n) ∧ (0 ≤ s ∧ s < n) := ⟨(hE (s, d) hd).2, hs0, hs1⟩
      simp only [hr, and_self, if_true, hz, if_false, hd] at h
      obtain ⟨row, hrow, hmem⟩ := mem_of_entry G d s _ h
      exact ⟨row, hrow, _, hmem⟩

theorem initial_pi_probability_vector [LinearOrderedField K] (n : Nat) (hn : 0 < n) :
    probability_vector n (initial_pi (n : Int) : List K) := by
  have hn' : (n : K) ≠ 0 := Nat.cast_ne_zero.mpr (Nat.pos_iff_ne_zero.mp hn)
  refine ⟨by simp [initial_pi], ?_, ?_⟩
  · intro x hx
    simp only [initial_pi] at hx
    rw [List.eq_of_mem_replicate hx]
    simp
  · simp [initial_pi, List.sum_replicate, hn']

theorem PageRank_loop_probability_vector [LinearOrderedField K] (n : Nat) (G : Graph K)
    (hG : positive_columns n G) (k : Nat) :
    ∀ pi : List K, probability_vector n pi →
      ∃ pi', PageRank_loop G k pi = some pi' ∧ probability_vector n pi' := by
  induction k with
  | zero => intro pi hpi; exact ⟨pi, rfl, hpi⟩
  | succ k ih =>
    intro pi hpi
    obtain ⟨-, -, -, pi1, hround, hpi1⟩ := round_probability_vector n G pi hG hpi
    obtain ⟨pi', hloop, hpi'⟩ := ih pi1 hpi1
    exact ⟨pi', by simp only [PageRank_loop, hround, hloop], hpi'⟩

theorem sum_map_const [Field K] {α : Type} (l : List α) (f : α → K) (c : K)
    (h : ∀ x ∈ l, f x = c) : (l.map f).sum = (l.length : K) * c := by
  induction l with
  | nil => simp
  | cons x xs ih =>
    rw [List.map_cons, List.sum_cons, h x (List.mem_cons_self _ _),
      ih (fun y hy => h y (List.mem_cons_of_mem _ hy))]
    simp only [List.length_cons]
    push_cast
    ring

theorem outdeg_eq_zero_iff (E : List (Int × Int)) (src : Int) :
    outdeg E src = 0 ↔ ∀ e ∈ E, e.1 ≠ src := by
  simp [outdeg, List.countP_eq_zero]

theorem find_row_eq_entry (G : Graph K) (row : Row K) (hrow : row ∈ G) :
    ∃ i : Nat, i < G.length ∧ ∀ s : Int, find row s = entry G (i : Int) s := by
  obtain ⟨i, hi⟩ := List.mem_iff_getElem?.mp hrow
  obtain ⟨hlt, -⟩ := List.getElem?_eq_some.mp hi
  exact ⟨i, hlt, fun s => by simp [entry, vec_get_natCast, hi]⟩

end Built

/-! ## Scenario B: two vertices, the single edge `(0,1)`, `alpha = 17/20` -/

section ScenarioB

variable {K : Type}

theorem scenario_B_graph [LinearOrderedField K] :
    build_google_graph 2 [(0, 1)] (17 / 20 : K) =
      some ([], [[(1, 1 / 2)], [(0, 37 / 40), (1, 1 / 2)]]) := by
  simp [build_google_graph, drain, vec_update, vec_get, assign, normalize_links,
    for_each_row, normalize_row, dangling_fill, fill_column, damping]
  norm_num

theorem scenario_B_next [LinearOrderedField K] (x y : K) :
    next_vector [x, y] ([[(1, 1 / 2)], [(0, 37 / 40), (1, 1 / 2)]] : Graph K) =
      some [y * (1 / 2), x * (37 / 40) + y * (1 / 2)] := by
  simp [next_vector, for_each_row, row_sum, vec_get]

theorem scenario_B_round [LinearOrderedField K] (x : K) (hx : 40 - 3 * x ≠ 0) :
    PageRank_round ([[(1, 1 / 2)], [(0, 37 / 40), (1, 1 / 2)]] : Graph K) [x, 1 - x] =
      some [20 * (1 - x) / (40 - 3 * x), 1 - 20 * (1 - x) / (40 - 3 * x)] := by
  have hS : L1_sum [(1 - x) * (1 / 2), x * (37 / 40) + (1 - x) * (1 / 2)] =
      (40 - 3 * x) / 40 := by
    simp only [L1_sum, List.foldl_cons, List.foldl_nil]
    ring
  simp only [PageRank_round, scenario_B_next, hS, List.map_cons, List.map_nil,
    Option.some.injEq, List.cons.injEq, and_true]
  constructor
  · field_simp
    ring
  · field_simp
    ring

theorem scenario_B_step_diff [LinearOrderedField K] (a b : K) (ha : a ≤ 1) (hb : b ≤ 1) :
    scenario_B_step a - scenario_B_step b =
      -(740 * (a - b)) / ((40 - 3 * a) * (40 - 3 * b)) := by
  have h1 : 40 - 3 * a ≠ 0 := by linarith
  have h2 : 40 - 3 * b ≠ 0 := by linarith
  unfold scenario_B_step
  field_simp
  ring

theorem scenario_B_step_range [LinearOrderedField K] (x : K) (h0 : 0 ≤ x) (h1 : x ≤ 1) :
    0 ≤ scenario_B_step x ∧ scenario_B_step x ≤ 1 := by
  have hd : 0 < 40 - 3 * x := by linarith
  unfold scenario_B_step
  constructor
  · exact div_nonneg (by linarith) (le_of_lt hd)
  · rw [div_le_one hd]
    linarith

theorem scenario_B_step_contracts [LinearOrderedField K] (a b : K) (ha0 : 0 ≤ a)
    (ha : a ≤ 1) (hb0 : 0 ≤ b) (hb : b ≤ 1) (hab : a ≠ b) :
    |scenario_B_step a - scenario_B_step b| < |a - b| := by
  have h1 : 37 ≤ 40 - 3 * a := by linarith
  have h2 : 37 ≤ 40 - 3 * b := by linarith
  have hprod : (740 : K) < (40 - 3 * a) * (40 - 3 * b) := by nlinarith
  have hpos : (0 : K) < (40 - 3 * a) * (40 - 3 * b) := by linarith
  have habs : 0 < |a - b| := abs_pos.mpr (sub_ne_zero.mpr hab)
  rw [scenario_B_step_diff a b ha hb, abs_div, abs_neg, abs_mul, abs_of_pos hpos,
    abs_of_pos (by norm_num : (0 : K) < 740), div_lt_iff₀ hpos]
  nlinarith

theorem scenario_B_round_step [LinearOrderedField K] (x : K) (hx : x ≤ 1) :
    PageRank_round ([[(1, 1 / 2)], [(0, 37 / 40), (1, 1 / 2)]] : Graph K) [x, 1 - x] =
      some [scenario_B_step x, 1 - scenario_B_step x] :=
  scenario_B_round x (by linarith)

/-- The iterates of scenario B from the uniform start vector: the vector after `k` rounds
is `(x, 1-x)` with `x` in `[0,1]`, and the next round moves it. -/
theorem scenario_B_iterates [LinearOrderedField K] (k : Nat) :
    ∃ x : K, (0 ≤ x ∧ x ≤ 1) ∧ scenario_B_step x ≠ x ∧
      PageRank_loop ([[(1, 1 / 2)], [(0, 37 / 40), (1, 1 / 2)]] : Graph K) k
        [1 / 2, 1 / 2] = some [x, 1 - x] := by
  induction k with
  | zero =>
    refine ⟨1 / 2, ⟨by norm_num, by norm_num⟩, ?_, ?_⟩
    · unfold scenario_B_step
      norm_num
    · simp only [PageRank_loop]
      norm_num
  | succ k ih =>
    obtain ⟨x, ⟨hx0, hx1⟩, hne, hk⟩ := ih
    obtain ⟨hs0, hs1⟩ := scenario_B_step_range x hx0 hx1
    refine ⟨scenario_B_step x, ⟨hs0, hs1⟩, ?_, ?_⟩
    · intro h
      have h2 := scenario_B_step_diff (scenario_B_step x) x hs1 hx1
      rw [h, sub_self] at h2
      have hd : (40 - 3 * scenario_B_step x) * (40 - 3 * x) ≠ 0 :=
        mul_ne_zero (by linarith) (by linarith)
      have h3 := (div_eq_zero_iff.mp h2.symm).resolve_right hd
      apply hne
      linarith
    · rw [PageRank_loop_succ, hk]
      exact scenario_B_round_step x hx1

theorem l1_dist_pair [LinearOrderedField K] (a b : K) :
    l1_dist [a, 1 - a] [b, 1 - b] = 2 * |a - b| := by
  have h : (1 - a) - (1 - b) = -(a - b) := by ring
  simp only [l1_dist, List.zipWith_cons_cons, List.zipWith_nil_left, List.sum_cons,
    List.sum_nil, h, abs_neg]
  ring

end ScenarioB

/-! ## Scenario A: the directed cycle -/

section Cycle

variable {K : Type}

theorem mem_cycle_edges (n : Nat) (s d : Int) :
    (s, d) ∈ cycle_edges n ↔ ∃ i : Nat, i < n ∧ s = (i : Int) ∧ d = (((i + 1) % n : Nat) : Int) := by
  unfold cycle_edges
  rw [List.mem_map]
  constructor
  · rintro ⟨i, hi, he⟩
    simp only [Prod.mk.injEq] at he
    exact ⟨i, List.mem_range.mp hi, he.1.symm, he.2.symm⟩
  · rintro ⟨i, hi, hs, hd⟩
    exact ⟨i, List.mem_range.mpr hi, by rw [hs, hd]; rfl⟩

theorem cycle_edges_in_range (n : Nat) : edges_in_range n (cycle_edges n) := by
  intro e he
  obtain ⟨s, d⟩ := e
  obtain ⟨i, hi, hs, hd⟩ := (mem_cycle_edges n s d).mp he
  have hmod : (i + 1) % n < n := Nat.mod_lt _ (by omega)
  simp only [hs, hd]
  omega

theorem outdeg_cycle_edges (n i : Nat) (hi : i < n) : outdeg (cycle_edges n) (i : Int) = 1 := by
  unfold outdeg cycle_edges
  rw [List.countP_map]
  have h : List.countP ((fun e : Int × Int => decide (e.1 = (i : Int))) ∘
      fun j : Nat => (Int.ofNat j, Int.ofNat ((j + 1) % n))) (List.range n) =
      List.count i (List.range n) := by
    rw [List.count_eq_countP]
    apply List.countP_congr
    intro j _
    simp only [Function.comp_apply, Int.ofNat_eq_coe, decide_eq_true_eq, beq_iff_eq]
    omega
  rw [h]
  exact List.count_eq_one_of_mem (List.nodup_range n) (List.mem_range.mpr hi)

theorem cycle_pred (n i j : Nat) (hi : i < n) (hj : j < n) :
    (i + 1) % n = j ↔ i = (j + n - 1) % n := by
  have hq : (i + 1) % n = if i + 1 = n then 0 else i + 1 := by
    split
    · next h => rw [h, Nat.mod_self]
    · next h => exact Nat.mod_eq_of_lt (by omega)
  have hp : (j + n - 1) % n = if j = 0 then n - 1 else j - 1 := by
    split
    · next h =>
      subst h
      rw [Nat.zero_add]
      exact Nat.mod_eq_of_lt (by omega)
    · next h =>
      have e : j + n - 1 = (j - 1) + n := by omega
      rw [e, Nat.add_mod_right]
      exact Nat.mod_eq_of_lt (by omega)
  rw [hq, hp]
  split <;> split <;> omega

theorem row_eq_singleton (row : Row K) (hnd : (keys row).Nodup) (k : Int) (c : K)
    (h : ∀ s, find row s = if s = k then some c else none) : row = [(k, c)] := by
  cases row with
  | nil =>
    have := h k
    simp [find] at this
  | cons e rest =>
    obtain ⟨a, b⟩ := e
    have ha := h a
    simp only [find, if_true] at ha
    by_cases hak : a = k
    · simp only [hak, if_true, Option.some.injEq] at ha
      subst hak
      subst ha
      cases rest with
      | nil => rfl
      | cons e' rest' =>
        obtain ⟨a', b'⟩ := e'
        simp only [keys, List.map_cons, List.nodup_cons, List.mem_cons, not_or] at hnd
        have hne : ¬ a = a' := hnd.1.1
        have hne' : ¬ a' = a := fun e => hne e.symm
        have ha' := h a'
        simp [find, hne, hne'] at ha'
    · simp [hak] at ha

theorem map_eq_replicate_of_const {α β : Type} (l : List α) (f : α → β) (c : β)
    (h : ∀ x ∈ l, f x = c) : l.map f = List.replicate l.length c := by
  induction l with
  | nil => rfl
  | cons x xs ih =>
    rw [List.map_cons, h x (List.mem_cons_self _ _),
      ih (fun y hy => h y (List.mem_cons_of_mem _ hy))]
    rfl

/-- On a graph with `n` rows that each hold a single entry, of weight `c ≠ 0` and with a
key in `[0,n)`, one round maps the uniform vector to itself. -/
theorem round_uniform_of_singleton_rows [LinearOrderedField K] (n : Nat) (hn : 0 < n)
    (G : Graph K) (hlen : G.length = n) (c : K) (hc : c ≠ 0)
    (hrows : ∀ row ∈ G, ∃ key : Int, (0 ≤ key ∧ key < (n : Int)) ∧ row = [(key, c)]) :
    PageRank_round G (List.replicate n (1 / (n : K))) =
      some (List.replicate n (1 / (n : K))) := by
  have hn' : (n : K) ≠ 0 := Nat.cast_ne_zero.mpr (Nat.pos_iff_ne_zero.mp hn)
  have hget : ∀ key : Int, 0 ≤ key → key < (n : Int) →
      vec_get (List.replicate n (1 / (n : K))) key = some (1 / (n : K)) := by
    intro key h0 h1
    have hlt : key.toNat < n := by omega
    simp [vec_get, not_lt.mpr h0, hlt]
  have hread : ∀ row ∈ G, ∀ k ∈ keys row,
      ∃ p, vec_get (List.replicate n (1 / (n : K))) k = some p := by
    intro row hrow k hk
    obtain ⟨key, hkey, rfl⟩ := hrows row hrow
    simp only [keys, List.map_cons, List.map_nil, List.mem_singleton] at hk
    rw [hk]
    exact ⟨_, hget key hkey.1 hkey.2⟩
  have hval : ∀ row ∈ G, row_value (List.replicate n (1 / (n : K))) row = 1 / (n : K) * c := by
    intro row hrow
    obtain ⟨key, hkey, rfl⟩ := hrows row hrow
    simp only [row_value, List.map_cons, List.map_nil, List.sum_cons, List.sum_nil,
      hget key hkey.1 hkey.2, Option.getD_some, add_zero]
  have hnext := next_vector_eq (List.replicate n (1 / (n : K))) G hread
  rw [map_eq_replicate_of_const G _ _ hval, hlen] at hnext
  have hS : L1_sum (List.replicate n (1 / (n : K) * c)) = c := by
    rw [L1_sum_eq_sum, List.sum_replicate, nsmul_eq_mul]
    field_simp
  simp only [PageRank_round, hnext, hS, List.map_replicate]
  congr 2
  field_simp
  ring

theorem PageRank_loop_fixed [Field K] (G : Graph K) (pi : List K)
    (h : PageRank_round G pi = some pi) (k : Nat) : PageRank_loop G k pi = some pi := by
  induction k with
  | zero => rfl
  | succ k ih => simp only [PageRank_loop, h, ih]

end Cycle

/-! ## The drain loop step by step -/

section Drain

variable {K : Type}

theorem drain_eq_drain_steps [Field K] (E : List (Int × Int)) :
    ∀ (G : Graph K) (outlinks : List Nat),
      drain E G outlinks = drain_steps E.length (E, G, outlinks) := by
  induction E with
  | nil => intro G outlinks; rfl
  | cons e E ih =>
    obtain ⟨src, dest⟩ := e
    intro G outlinks
    simp only [drain, List.length_cons, drain_steps, drain_body]
    cases vec_update (fun row => assign row src (-1 : K)) G dest with
    | none => rfl
    | some G' =>
      cases vec_update (fun c => c + 1) outlinks src with
      | none => rfl
      | some outlinks' => exact ih G' outlinks'

theorem drain_steps_drop [Field K] (n : Nat) :
    ∀ (j : Nat) (E : List (Int × Int)) (G : Graph K) (outlinks : List Nat),
      edges_in_range n E → G.length = n → outlinks.length = n → j ≤ E.length →
      ∃ Gj outj, drain_steps j (E, G, outlinks) = some (E.drop j, Gj, outj) := by
  intro j
  induction j with
  | zero => intro E G outlinks _ _ _ _; exact ⟨G, outlinks, rfl⟩
  | succ j ih =>
    intro E G outlinks hE hG ho hj
    cases E with
    | nil => simp at hj
    | cons e E =>
      obtain ⟨src, dest⟩ := e
      have hin := hE (src, dest) (List.mem_cons_self _ _)
      simp only at hin
      obtain ⟨row, -, hG1⟩ :=
        vec_update_in_range (fun row => assign row src (-1 : K)) G dest hin.2.1 (by omega)
      obtain ⟨c, -, ho1⟩ :=
        vec_update_in_range (fun c => c + 1) outlinks src hin.1.1 (by omega)
      obtain ⟨Gj, outj, hstep⟩ := ih E (G.set dest.toNat (assign row src (-1 : K)))
        (outlinks.set src.toNat (c + 1)) (fun e he => hE e (List.mem_cons_of_mem _ he))
        (by simp [hG]) (by simp [ho]) (by simpa using hj)
      exact ⟨Gj, outj, by simp only [drain_steps, drain_body, hG1, ho1, hstep, List.drop_succ_cons]⟩

end Drain

/-! ## Index safety and the range of the weights -/

section Safety

variable {K : Type}

theorem replicate_nil_nodup (n : Nat) :
    ∀ row ∈ List.replicate n ([] : Row K), (keys row).Nodup := by
  intro row hrow
  rw [List.eq_of_mem_replicate hrow]
  simp [keys]

theorem keys_in_range_of_entries (n : Nat) (G : Graph K)
    (hent : ∀ d s : Int, ∀ w : K, entry G d s = some w → 0 ≤ s ∧ s < (n : Int)) :
    ∀ row ∈ G, ∀ k ∈ keys row, 0 ≤ k ∧ k < (n : Int) := by
  intro row hrow k hk
  obtain ⟨d, w, hw⟩ := entry_of_mem_row G row hrow k hk
  exact hent d k w hw

theorem build_google_graph_keys [Field K] (n : Nat) (E : List (Int × Int)) (alpha : K)
    (hE : edges_in_range n E) :
    ∃ G : Graph K, build_google_graph (n : Int) E alpha = some ([], G) ∧ G.length = n ∧
      ∀ row ∈ G, ∀ k ∈ keys row, 0 ≤ k ∧ k < (n : Int) := by
  obtain ⟨G, hbuild, hlen, -, hent⟩ := build_google_graph_spec n E alpha hE
  refine ⟨G, hbuild, hlen, keys_in_range_of_entries n G ?_⟩
  intro d s w hw
  rw [hent] at hw
  by_cases hr : (0 ≤ d ∧ d < (n : Int)) ∧ (0 ≤ s ∧ s < (n : Int))
  · exact hr.2
  · rw [if_neg hr] at hw
    exact absurd hw (by simp)

theorem PageRank_round_defined [Field K] (n : Nat) (G : Graph K) (pi : List K)
    (hkeys : ∀ row ∈ G, ∀ k ∈ keys row, 0 ≤ k ∧ k < (n : Int)) (hpi : pi.length = n) :
    ∃ pi', PageRank_round G pi = some pi' ∧ pi'.length = G.length := by
  have hread : ∀ row ∈ G, ∀ k ∈ keys row, ∃ p, vec_get pi k = some p := by
    intro row hrow k hk
    have := hkeys row hrow k hk
    exact vec_get_in_range pi k this.1 (by rw [hpi]; exact this.2)
  have hnext := next_vector_eq pi G hread
  exact ⟨(G.map (row_value pi)).map (fun x => x / L1_sum (G.map (row_value pi))),
    by simp only [PageRank_round, hnext], by simp⟩

theorem PageRank_loop_defined [Field K] (n : Nat) (G : Graph K) (hG : G.length = n)
    (hkeys : ∀ row ∈ G, ∀ k ∈ keys row, 0 ≤ k ∧ k < (n : Int)) (k : Nat) :
    ∀ pi : List K, pi.length = n →
      ∃ pi', PageRank_loop G k pi = some pi' ∧ pi'.length = n := by
  induction k with
  | zero => intro pi hpi; exact ⟨pi, rfl, hpi⟩
  | succ k ih =>
    intro pi hpi
    obtain ⟨pi1, hround, hlen1⟩ := PageRank_round_defined n G pi hkeys hpi
    obtain ⟨pi', hloop, hlen'⟩ := ih pi1 (by rw [hlen1, hG])
    exact ⟨pi', by simp only [PageRank_loop, hround, hloop], hlen'⟩

theorem weight_le_one [LinearOrderedField K] (n c : Nat) (hn : 0 < n) (hc : 0 < c)
    (alpha : K) (h0 : 0 < alpha) (h1 : alpha < 1) :
    alpha * (1 / (c : K)) + (1 - alpha) * (1 / (n : K)) ≤ 1 := by
  have hn' : (1 : K) ≤ (n : K) := by exact_mod_cast hn
  have hc' : (1 : K) ≤ (c : K) := by exact_mod_cast hc
  have h2 : 1 / (c : K) ≤ 1 := by
    rw [div_le_one (by linarith)]
    exact hc'
  have h3 : 1 / (n : K) ≤ 1 := by
    rw [div_le_one (by linarith)]
    exact hn'
  have h4 : alpha * (1 / (c : K)) ≤ alpha * 1 := mul_le_mul_of_nonneg_left h2 (le_of_lt h0)
  have h5 : (1 - alpha) * (1 / (n : K)) ≤ (1 - alpha) * 1 :=
    mul_le_mul_of_nonneg_left h3 (by linarith)
  linarith

end Safety

/-! ## The sparse rows as a dense matrix -/

section Dense

variable {K : Type}

theorem row_value_eq_dense [Field K] (n : Nat) (pi : List K) :
    ∀ row : Row K, (keys row).Nodup → (∀ k ∈ keys row, 0 ≤ k ∧ k < (n : Int)) →
      row_value pi row =
        Finset.sum (Finset.range n)
          (fun i => (vec_get pi (i : Int)).getD 0 * (find row (i : Int)).getD 0) := by
  intro row
  induction row with
  | nil => intro _ _; simp [row_value, find]
  | cons e rest ih =>
    obtain ⟨k, v⟩ := e
    intro hnd hkeys
    simp only [keys, List.map_cons, List.nodup_cons] at hnd
    have hk := hkeys k (by simp [keys])
    obtain ⟨k0, rfl⟩ := Int.eq_ofNat_of_zero_le hk.1
    have hk0 : k0 < n := by omega
    have hrest : find rest (k0 : Int) = none := (find_eq_none_iff rest _).mpr hnd.1
    have ih' := ih hnd.2 (fun k' hk' => hkeys k' (by
      simp only [keys, List.map_cons, List.mem_cons]
      exact Or.inr hk'))
    have hterm : ∀ i ∈ Finset.range n,
        (vec_get pi (i : Int)).getD 0 * (find (((k0 : Int), v) :: rest) (i : Int)).getD 0 =
          (if k0 = i then (vec_get pi (k0 : Int)).getD 0 * v else 0) +
            (vec_get pi (i : Int)).getD 0 * (find rest (i : Int)).getD 0 := by
      intro i _
      by_cases hi : k0 = i
      · subst hi
        simp [find, hrest]
      · have hne : ¬ ((k0 : Int) = (i : Int)) := by omega
        simp [find, hi, hne]
    rw [Finset.sum_congr rfl hterm, Finset.sum_add_distrib, Finset.sum_ite_eq, ← ih',
      if_pos (Finset.mem_range.mpr hk0)]
    simp [row_value]

end Dense

/-! ## Column sums of the built graph -/

section Columns

variable {K : Type}

end Columns

/-! ## Empty rows and scaled start vectors -/

section Scaling

variable {K : Type}

theorem row_eq_nil_of_find_none (row : Row K) (h : ∀ s : Int, find row s = none) :
    row = [] := by
  cases row with
  | nil => rfl
  | cons e rest =>
    obtain ⟨a, b⟩ := e
    have := h a
    simp [find] at this

theorem PageRank_round_empty_row [Field K] (G : Graph K) (pi pi' : List K) (j : Int)
    (hrow : vec_get G j = some []) (h : PageRank_round G pi = some pi') :
    vec_get pi' j = some 0 := by
  unfold PageRank_round at h
  cases hnext : next_vector pi G with
  | none => simp [hnext] at h
  | some next_pi =>
    simp only [hnext, Option.some.injEq] at h
    subst h
    rw [vec_get_eq_some_iff] at hrow
    have hget := for_each_row_getElem? (fun row => row_sum pi row 0) G next_pi hnext j.toNat
    rw [hrow.2] at hget
    simp only [Option.some_bind, row_sum] at hget
    rw [vec_get_map, (vec_get_eq_some_iff next_pi j 0).mpr ⟨hrow.1, hget⟩]
    simp

theorem row_sum_scale [Field K] (c : K) (pi : List K) :
    ∀ (row : Row K) (acc : K),
      row_sum (pi.map (fun x => c * x)) row (c * acc) =
        (row_sum pi row acc).map (fun x => c * x) := by
  intro row
  induction row with
  | nil => intro acc; rfl
  | cons e rest ih =>
    obtain ⟨i, w⟩ := e
    intro acc
    simp only [row_sum, vec_get_map]
    cases vec_get pi i with
    | none => rfl
    | some p =>
      simp only [Option.map_some']
      rw [show c * acc + c * p * w = c * (acc + p * w) by ring]
      exact ih (acc + p * w)

theorem next_vector_scale [Field K] (c : K) (pi : List K) :
    ∀ G : Graph K,
      next_vector (pi.map (fun x => c * x)) G =
        (next_vector pi G).map (fun v => v.map (fun x => c * x)) := by
  intro G
  induction G with
  | nil => rfl
  | cons row rows ih =>
    unfold next_vector at ih ⊢
    have h := row_sum_scale c pi row 0
    rw [mul_zero] at h
    simp only [for_each_row, h, ih]
    cases row_sum pi row 0 with
    | none => rfl
    | some x =>
      cases for_each_row (fun row => row_sum pi row 0) rows with
      | none => rfl
      | some xs => rfl

theorem L1_sum_scale [Field K] (c : K) (v : List K) :
    L1_sum (v.map (fun x => c * x)) = c * L1_sum v := by
  rw [L1_sum_eq_sum, L1_sum_eq_sum]
  induction v with
  | nil => simp
  | cons x xs ih => simp [ih, mul_add]

theorem PageRank_round_scale [Field K] (c : K) (hc : c ≠ 0) (G : Graph K) (pi : List K) :
    PageRank_round G (pi.map (fun x => c * x)) = PageRank_round G pi := by
  unfold PageRank_round
  rw [next_vector_scale]
  cases next_vector pi G with
  | none => rfl
  | some next_pi =>
    simp only [Option.map_some', Option.some.injEq, List.map_map, L1_sum_scale]
    apply List.map_congr_left
    intro x _
    exact mul_div_mul_left x (L1_sum next_pi) hc

theorem PageRank_loop_scale [Field K] (c : K) (hc : c ≠ 0) (G : Graph K) (pi : List K)
    (m : Nat) :
    PageRank_loop G (m + 1) (pi.map (fun x => c * x)) = PageRank_loop G (m + 1) pi := by
  simp only [PageRank_loop, PageRank_round_scale c hc]

end Scaling

/-! ## Runs of the code in `double` arithmetic -/

section DoubleRuns

variable {K : Type}

/-- Known binary64 values: `0.1`, `0.85`, `1.0/3`, and the ties `2^53 + 1` (down to the even
`2^53`) and `2^53 + 3` (up to the even `2^53 + 4`). -/
theorem Double.round_examples :
    Double.round 1 10 0 = ⟨3602879701896397, -55⟩ ∧
    Double.round 17 20 0 = ⟨7656119366529843, -53⟩ ∧
    Double.div (Double.ofInt 1) (Double.ofInt 3) = some ⟨6004799503160661, -54⟩ ∧
    Double.round 9007199254740993 1 0 = ⟨1, 53⟩ ∧
    Double.round 9007199254740995 1 0 = ⟨2251799813685249, 2⟩ := by
  decide!

theorem scenario_B_graph_double :
    build_google_graph_double 2 [(0, 1)] (Double.round 17 20 0) =
      some ([], [[(1, ⟨1, -1⟩)], [(0, ⟨4165829655317709, -52⟩), (1, ⟨1, -1⟩)]]) := by
  decide!

theorem initial_pi_double_two : initial_pi_double 2 = some [⟨1, -1⟩, ⟨1, -1⟩] := by
  decide!

theorem build_double_of_parts {β : Type} (n : Int) (E : List (Int × Int)) (alpha : Double)
    (f : Graph Double → Option β) (b : β)
    (h1 : (build_google_graph_double n E alpha).map Prod.fst = some [])
    (h2 : (build_google_graph_double n E alpha).bind (fun r => f r.2) = some b) :
    ∃ G : Graph Double, build_google_graph_double n E alpha = some ([], G) ∧ f G = some b := by
  cases hb : build_google_graph_double n E alpha with
  | none => simp [hb] at h1
  | some r =>
    obtain ⟨E', G⟩ := r
    simp only [hb, Option.map_some', Option.some.injEq] at h1
    simp only [hb, Option.some_bind] at h2
    subst h1
    exact ⟨G, rfl, h2⟩

theorem l1_dist_pair_comm [LinearOrderedField K] (a b c d : K) :
    l1_dist [a, b] [c, d] = l1_dist [c, d] [a, b] := by
  simp only [l1_dist, List.zipWith_cons_cons, List.zipWith_nil_left, List.sum_cons,
    List.sum_nil, abs_sub_comm a c, abs_sub_comm b d]

theorem divisor_nonzero_of_probability_vector [LinearOrderedField K] (n : Nat)
    (G : Graph K) (hG : positive_columns n G) (pi0 : List K)
    (hpi0 : probability_vector n pi0) (j : Nat) (p next_pi : List K)
    (hp : PageRank_loop G j pi0 = some p) (hn : next_vector p G = some next_pi) :
    L1_sum next_pi ≠ 0 := by
  obtain ⟨p', hp', hpv⟩ := PageRank_loop_probability_vector n G hG j pi0 hpi0
  rw [hp] at hp'
  simp only [Option.some.injEq] at hp'
  subst hp'
  obtain ⟨next', hnext', hpos, -⟩ := round_probability_vector n G p hG hpv
  rw [hn] at hnext'
  simp only [Option.some.injEq] at hnext'
  subst hnext'
  exact ne_of_gt hpos

theorem scenario_B_divisor_nonzero (pi0 : List ℚ) (hpi0 : probability_vector 2 pi0)
    (j : Nat) (p next_pi : List ℚ)
    (hp : PageRank_loop ([[(1, 1 / 2)], [(0, 37 / 40), (1, 1 / 2)]] : Graph ℚ) j pi0 = some p)
    (hn : next_vector p ([[(1, 1 / 2)], [(0, 37 / 40), (1, 1 / 2)]] : Graph ℚ) = some next_pi) :
    L1_sum next_pi ≠ 0 := by
  obtain ⟨G, hbuild, hG⟩ :=
    @build_google_graph_positive ℚ _ 2 (by decide) (17 / 20) (by norm_num) (by norm_num)
      [(0, 1)] (by decide)
  have hB := @scenario_B_graph ℚ _
  have hcast : ((2 : Nat) : Int) = 2 := rfl
  rw [hcast, hB] at hbuild
  simp only [Option.some.injEq, Prod.mk.injEq, true_and] at hbuild
  subst hbuild
  exact divisor_nonzero_of_probability_vector 2 _ hG pi0 hpi0 j p next_pi hp hn

end DoubleRuns

/-! ## The claims -/

section Claims

variable {K : Type}

/-- C1: for every `n > 0`, every `alpha` with `0 < alpha < 1`, every edge list whose
endpoints lie in `[0,n)` and every iteration count `k` (a negative count runs no round),
`build_google_graph` returns a graph `G`, and `PageRank` run on `G` from the uniform start
vector of `main` returns a vector of length `n` whose entries are all non-negative and sum
to exactly one. -/
theorem pagerank_output_probability_vector [LinearOrderedField K] (n : Nat) (hn : 0 < n)
    (alpha : K) (h0 : 0 < alpha) (h1 : alpha < 1) (E : List (Int × Int))
    (hE : edges_in_range n E) (k : Int) :
    ∃ (G : Graph K) (pi : List K), build_google_graph (n : Int) E alpha = some ([], G) ∧
      PageRank G (initial_pi (n : Int)) k = some pi ∧
      pi.length = n ∧ (∀ x ∈ pi, 0 ≤ x) ∧ pi.sum = 1 := by
  obtain ⟨G, hbuild, hG⟩ := build_google_graph_positive n hn alpha h0 h1 E hE
  obtain ⟨pi, hrun, hpi⟩ := PageRank_loop_probability_vector n G hG k.toNat
    (initial_pi (n : Int)) (initial_pi_probability_vector n hn)
  exact ⟨G, pi, hbuild, hrun, hpi⟩

/-- Witness of C1: three vertices, the edges `(0,1)`, `(0,1)`, `(1,2)` (vertex 2 dangles),
`alpha = 17/20`, twenty rounds. -/
theorem pagerank_output_probability_vector_witness :
    ∃ (G : Graph ℚ) (pi : List ℚ),
      build_google_graph ((3 : Nat) : Int) [(0, 1), (0, 1), (1, 2)] (17 / 20) = some ([], G) ∧
      PageRank G (initial_pi ((3 : Nat) : Int)) 20 = some pi ∧
      pi.length = 3 ∧ (∀ x ∈ pi, 0 ≤ x) ∧ pi.sum = 1 :=
  pagerank_output_probability_vector 3 (by decide) (17 / 20) (by norm_num) (by norm_num)
    [(0, 1), (0, 1), (1, 2)] (by decide) 20

/-- C2, as amended (non-negative start vector, exact arithmetic): in exact arithmetic, for
every graph `G` that `build_google_graph` returns for `n > 0`, `0 < alpha < 1` and an
in-range edge list, every start vector of length `n` whose entries are non-negative and
sum to one, and every `k`, each of the rounds `j < k` starts from the defined vector
`PageRank(G, pi0, j)`, computes a fresh vector whose sum (the renormalization divisor) is
non-zero, and ends in `PageRank(G, pi0, j+1)`, whose entries sum to one. -/
theorem pagerank_rounds_renormalize [LinearOrderedField K] (n : Nat) (hn : 0 < n)
    (alpha : K) (h0 : 0 < alpha) (h1 : alpha < 1) (E : List (Int × Int))
    (hE : edges_in_range n E) (pi0 : List K) (hlen : pi0.length = n)
    (hnn : ∀ x ∈ pi0, 0 ≤ x) (hsum : pi0.sum = 1) (k : Nat) :
    ∃ G : Graph K, build_google_graph (n : Int) E alpha = some ([], G) ∧
      ∀ j : Nat, j < k → ∃ (p next_pi p' : List K),
        PageRank G pi0 (j : Int) = some p ∧ next_vector p G = some next_pi ∧
        L1_sum next_pi ≠ 0 ∧ PageRank_round G p = some p' ∧
        PageRank G pi0 ((j : Int) + 1) = some p' ∧ p'.sum = 1 := by
  obtain ⟨G, hbuild, hG⟩ := build_google_graph_positive n hn alpha h0 h1 E hE
  refine ⟨G, hbuild, ?_⟩
  intro j _
  obtain ⟨p, hp, hpv⟩ := PageRank_loop_probability_vector n G hG j pi0 ⟨hlen, hnn, hsum⟩
  obtain ⟨next_pi, hnext, hpos, p', hround, hp'⟩ := round_probability_vector n G p hG hpv
  refine ⟨p, next_pi, p', by rw [PageRank_natCast, hp], hnext, ne_of_gt hpos, hround, ?_,
    hp'.2.2⟩
  have : ((j : Int) + 1) = ((j + 1 : Nat) : Int) := by push_cast; rfl
  rw [this, PageRank_natCast, PageRank_loop_succ, hp]
  exact hround

/-- Witness of C2 as amended (exact arithmetic over the rationals): two vertices, the edge `(0,1)`, `alpha = 17/20`, the start
vector `[1/4, 3/4]`, five rounds. -/
theorem pagerank_rounds_renormalize_witness :
    ∃ G : Graph ℚ, build_google_graph ((2 : Nat) : Int) [(0, 1)] (17 / 20) = some ([], G) ∧
      ∀ j : Nat, j < 5 → ∃ (p next_pi p' : List ℚ),
        PageRank G [1 / 4, 3 / 4] (j : Int) = some p ∧ next_vector p G = some next_pi ∧
        L1_sum next_pi ≠ 0 ∧ PageRank_round G p = some p' ∧
        PageRank G [1 / 4, 3 / 4] ((j : Int) + 1) = some p' ∧ p'.sum = 1 :=
  pagerank_rounds_renormalize 2 (by decide) (17 / 20) (by norm_num) (by norm_num)
    [(0, 1)] (by decide) [1 / 4, 3 / 4] rfl
    (by intro x hx; simp at hx; rcases hx with h | h <;> rw [h] <;> norm_num)
    (by norm_num) 5

/-- C2 as stated fails, in two ways.  A start vector with a negative entry: for `n = 2`,
the edge `(0,1)` and `alpha = 1/2` the built graph is `G[0] = {1 -> 1/2}`,
`G[1] = {0 -> 3/4, 1 -> 1/2}`; the start vector `[4, -3]` has length 2 and entries that sum
to one, yet the fresh vector of the first round is `[-3/2, 3/2]` and the renormalization
divisor is zero, in exact arithmetic and (all values being binary fractions) in `double`
arithmetic alike, where the round has no finite result.  Rounding: for `alpha = 0.85` and
the non-negative start vector `[1/4, 3/4]`, the entries after the second round in `double`
arithmetic sum to `1 - 2^-53`, not to one. -/
theorem pagerank_rounds_renormalize_counterexample :
    (∃ G : Graph ℚ, build_google_graph 2 [(0, 1)] (1 / 2) = some ([], G) ∧
      G = [[(1, 1 / 2)], [(0, 3 / 4), (1, 1 / 2)]] ∧
      ([4, -3] : List ℚ).length = 2 ∧ ([4, -3] : List ℚ).sum = 1 ∧
      next_vector [4, -3] G = some [-3 / 2, 3 / 2] ∧
      L1_sum ([-3 / 2, 3 / 2] : List ℚ) = 0) ∧
    (∃ G : Graph Double,
      build_google_graph_double 2 [(0, 1)] (Double.round 1 2 0) = some ([], G) ∧
      G = [[(1, ⟨1, -1⟩)], [(0, ⟨3, -2⟩), (1, ⟨1, -1⟩)]] ∧
      next_vector_double [Double.ofInt 4, Double.ofInt (-3)] G = some [⟨-3, -1⟩, ⟨3, -1⟩] ∧
      L1_sum_double [⟨-3, -1⟩, ⟨3, -1⟩] = Double.ofInt 0 ∧
      PageRank_round_double G [Double.ofInt 4, Double.ofInt (-3)] = none) ∧
    (∃ (G : Graph Double) (p : List Double),
      build_google_graph_double 2 [(0, 1)] (Double.round 17 20 0) = some ([], G) ∧
      ([Double.round 1 4 0, Double.round 3 4 0].map Double.toRat = [1 / 4, 3 / 4]) ∧
      PageRank_double G [Double.round 1 4 0, Double.round 3 4 0] 2 = some p ∧
      (p.map Double.toRat).sum = 1 - 1 / 2 ^ 53 ∧ (p.map Double.toRat).sum ≠ 1) := by
  refine ⟨?_, ?_, ?_⟩
  · have hG : build_google_graph 2 [(0, 1)] (1 / 2 : ℚ) =
        some ([], [[(1, 1 / 2)], [(0, 3 / 4), (1, 1 / 2)]]) := by
      simp [build_google_graph, drain, vec_update, vec_get, assign, normalize_links,
        for_each_row, normalize_row, dangling_fill, fill_column, damping]
      norm_num
    have hnext : next_vector [4, -3]
        ([[(1, 1 / 2)], [(0, 3 / 4), (1, 1 / 2)]] : Graph ℚ) = some [-3 / 2, 3 / 2] := by
      simp [next_vector, for_each_row, row_sum, vec_get]
      norm_num
    have hS : L1_sum ([-3 / 2, 3 / 2] : List ℚ) = 0 := by
      simp only [L1_sum, List.foldl_cons, List.foldl_nil]
      norm_num
    exact ⟨[[(1, 1 / 2)], [(0, 3 / 4), (1, 1 / 2)]], hG, rfl, rfl, by norm_num, hnext, hS⟩
  · exact ⟨[[(1, ⟨1, -1⟩)], [(0, ⟨3, -2⟩), (1, ⟨1, -1⟩)]], by decide!, rfl, by decide!,
      by decide!, by decide!⟩
  · have hrun : PageRank_double [[(1, ⟨1, -1⟩)], [(0, ⟨4165829655317709, -52⟩), (1, ⟨1, -1⟩)]]
        [Double.round 1 4 0, Double.round 3 4 0] 2 =
        some [⟨2864584681015987, -53⟩, ⟨1535653643431251, -51⟩] := by decide!
    have hstart : [Double.round 1 4 0, Double.round 3 4 0] = [⟨1, -2⟩, ⟨3, -2⟩] := by decide!
    have hsum : (([⟨2864584681015987, -53⟩, ⟨1535653643431251, -51⟩] : List Double).map
        Double.toRat).sum = 1 - 1 / 2 ^ 53 := by
      norm_num [Double.toRat]
    refine ⟨_, _, scenario_B_graph_double, ?_, hrun, hsum, ?_⟩
    · rw [hstart]
      norm_num [Double.toRat]
    · rw [hsum]
      norm_num

/-- C3, as amended (exact arithmetic): in exact arithmetic, for every `n > 0`, every
`alpha`, every in-range edge list and every vertex `src` in `[0,n)` that is the source of
no edge, `build_google_graph` returns a graph with `n` rows in which the entry
`G[dest][src]` is present for every `dest` in `[0,n)` with the value
`alpha/n + (1-alpha)/n`, that value is `1/n`, and the entries of `src` over all rows sum
to exactly one. -/
theorem dangling_column_uniform [LinearOrderedField K] (n : Nat) (hn : 0 < n) (alpha : K)
    (E : List (Int × Int)) (hE : edges_in_range n E) (src : Int) (hs0 : 0 ≤ src)
    (hs1 : src < n) (hdang : ∀ e ∈ E, e.1 ≠ src) :
    ∃ G : Graph K, build_google_graph (n : Int) E alpha = some ([], G) ∧ G.length = n ∧
      (∀ dest : Int, 0 ≤ dest → dest < n →
        entry G dest src = some (alpha / (n : K) + (1 - alpha) / (n : K))) ∧
      alpha / (n : K) + (1 - alpha) / (n : K) = 1 / (n : K) ∧ column_sum G src = 1 := by
  have hn' : (n : K) ≠ 0 := Nat.cast_ne_zero.mpr (Nat.pos_iff_ne_zero.mp hn)
  obtain ⟨G, hbuild, hlen, -, hent⟩ := build_google_graph_spec n E alpha hE
  have hz : outdeg E src = 0 := (outdeg_eq_zero_iff E src).mpr hdang
  have hval : ∀ dest : Int, 0 ≤ dest → dest < n →
      entry G dest src = some (alpha / (n : K) + (1 - alpha) / (n : K)) := by
    intro dest hd0 hd1
    rw [hent]
    simp only [hd0, hd1, hs0, hs1, and_self, if_true, hz, mul_one_div]
  have hone : alpha / (n : K) + (1 - alpha) / (n : K) = 1 / (n : K) := by
    field_simp
  refine ⟨G, hbuild, hlen, hval, hone, ?_⟩
  unfold column_sum
  rw [sum_map_const G _ (1 / (n : K)), hlen]
  · field_simp
  · intro row hrow
    obtain ⟨i, hi, hfind⟩ := find_row_eq_entry G row hrow
    rw [hfind src, hval (i : Int) (by omega) (by omega), hone]
    rfl

/-- Witness of C3 as amended (exact arithmetic over the rationals): three vertices, the edges `(0,1)`, `(1,0)`, `alpha = 17/20`; vertex 2 is
the source of no edge. -/
theorem dangling_column_uniform_witness :
    ∃ G : Graph ℚ,
      build_google_graph ((3 : Nat) : Int) [(0, 1), (1, 0)] (17 / 20) = some ([], G) ∧
      G.length = 3 ∧
      (∀ dest : Int, 0 ≤ dest → dest < (3 : Nat) →
        entry G dest 2 = some ((17 / 20) / ((3 : Nat) : ℚ) + (1 - 17 / 20) / ((3 : Nat) : ℚ))) ∧
      (17 / 20) / ((3 : Nat) : ℚ) + (1 - 17 / 20) / ((3 : Nat) : ℚ) = 1 / ((3 : Nat) : ℚ) ∧
      column_sum G 2 = 1 :=
  dangling_column_uniform 3 (by decide) (17 / 20) [(0, 1), (1, 0)] (by decide) 2
    (by decide) (by decide) (by decide)

/-- C3 as stated fails in `double` arithmetic.  For `n = 3`, no edge and `alpha = 0.76`,
`build_google_graph` stores for the dangling source `0` the value
`1501199875790165 * 2^-52` in every row, which is neither the `double` `1.0/3`
(`6004799503160661 * 2^-54`) nor the number `1/3`; the three entries add up to
`1 - 2^-52` when added as `double`s from `0.0`, and to `1 - 2^-52` exactly.  For
`n = 49`, no edge and `alpha = 0.85` the stored value `2941126287262365 * 2^-57` differs
from the `double` `1.0/49`.  For `n = 6`, no edge and `alpha = 0.85` the stored value is
the `double` `1.0/6`, and the six equal entries of a column add up to `1 - 2^-53` as
`double`s and to `1 - 2^-54` exactly. -/
theorem dangling_column_uniform_counterexample :
    (∃ G : Graph Double,
      build_google_graph_double 3 [] (Double.round 76 100 0) = some ([], G) ∧
      entry G 0 0 = some ⟨1501199875790165, -52⟩ ∧
      entry G 1 0 = some ⟨1501199875790165, -52⟩ ∧
      entry G 2 0 = some ⟨1501199875790165, -52⟩ ∧
      Double.div (Double.ofInt 1) (Double.ofInt 3) = some ⟨6004799503160661, -54⟩ ∧
      Double.toRat ⟨1501199875790165, -52⟩ ≠ 1 / 3 ∧
      L1_sum_double [⟨1501199875790165, -52⟩, ⟨1501199875790165, -52⟩,
        ⟨1501199875790165, -52⟩] = ⟨4503599627370495, -52⟩ ∧
      Double.ofInt 1 = ⟨1, 0⟩ ∧
      3 * Double.toRat ⟨1501199875790165, -52⟩ = 1 - 1 / 2 ^ 52) ∧
    (∃ G : Graph Double,
      build_google_graph_double 49 [] (Double.round 17 20 0) = some ([], G) ∧
      entry G 0 0 = some ⟨2941126287262365, -57⟩ ∧
      Double.div (Double.ofInt 1) (Double.ofInt 49) = some ⟨5882252574524729, -58⟩) ∧
    (∃ G : Graph Double,
      build_google_graph_double 6 [] (Double.round 17 20 0) = some ([], G) ∧
      ([0, 1, 2, 3, 4, 5].map (fun dest => entry G dest 0) =
        List.replicate 6 (some ⟨6004799503160661, -55⟩)) ∧
      Double.div (Double.ofInt 1) (Double.ofInt 6) = some ⟨6004799503160661, -55⟩ ∧
      L1_sum_double (List.replicate 6 ⟨6004799503160661, -55⟩) = ⟨9007199254740991, -53⟩ ∧
      6 * Double.toRat ⟨6004799503160661, -55⟩ = 1 - 1 / 2 ^ 54) := by
  refine ⟨?_, ?_, ?_⟩
  · obtain ⟨G, hG, hent⟩ := build_double_of_parts 3 [] (Double.round 76 100 0)
      (fun G => if entry G 0 0 = some ⟨1501199875790165, -52⟩ ∧
        entry G 1 0 = some ⟨1501199875790165, -52⟩ ∧
        entry G 2 0 = some ⟨1501199875790165, -52⟩ then some () else none) ()
      (by decide!) (by decide!)
    have h3 : entry G 0 0 = some ⟨1501199875790165, -52⟩ ∧
        entry G 1 0 = some ⟨1501199875790165, -52⟩ ∧
        entry G 2 0 = some ⟨1501199875790165, -52⟩ := by
      by_contra hcon
      rw [if_neg hcon] at hent
      exact absurd hent (by simp)
    refine ⟨G, hG, h3.1, h3.2.1, h3.2.2, by decide!, ?_, by decide!, by decide!, ?_⟩
    · norm_num [Double.toRat]
    · norm_num [Double.toRat]
  · obtain ⟨G, hG, hent⟩ := build_double_of_parts 49 [] (Double.round 17 20 0)
      (fun G => entry G 0 0) ⟨2941126287262365, -57⟩ (by decide!) (by decide!)
    exact ⟨G, hG, hent, by decide!⟩
  · obtain ⟨G, hG, hent⟩ := build_double_of_parts 6 [] (Double.round 17 20 0)
      (fun G => some ([0, 1, 2, 3, 4, 5].map (fun dest => entry G dest 0)))
      (List.replicate 6 (some ⟨6004799503160661, -55⟩)) (by decide!) (by decide!)
    refine ⟨G, hG, Option.some.inj hent, by decide!, by decide!, ?_⟩
    norm_num [Double.toRat]

/-- C4: for every `alpha`, every in-range edge list (repeated edges allowed), every vertex
`src` that is the source of at least one edge and every `dest`, `build_google_graph`
returns a graph in which the entry `G[dest][src]` is present if and only if the pair
`(src,dest)` occurs in the edge list, and a present entry has the value
`alpha/outdeg[src] + (1-alpha)/n`, where `outdeg[src]` counts the edges of the list with
source `src`. -/
theorem linked_column_entries [LinearOrderedField K] (n : Nat) (alpha : K)
    (E : List (Int × Int)) (hE : edges_in_range n E) (src : Int)
    (hsrc : ∃ e ∈ E, e.1 = src) (dest : Int) :
    ∃ G : Graph K, build_google_graph (n : Int) E alpha = some ([], G) ∧
      ((∃ w, entry G dest src = some w) ↔ (src, dest) ∈ E) ∧
      ∀ w, entry G dest src = some w →
        w = alpha / (outdeg E src : K) + (1 - alpha) / (n : K) := by
  obtain ⟨G, hbuild, -, -, hent⟩ := build_google_graph_spec n E alpha hE
  obtain ⟨e, he, hes⟩ := hsrc
  have hz : outdeg E src ≠ 0 := by
    rw [Ne, outdeg_eq_zero_iff]
    exact fun h => h e he hes
  have hs : 0 ≤ src ∧ src < (n : Int) := hes ▸ (hE e he).1
  refine ⟨G, hbuild, ?_, ?_⟩
  · rw [hent]
    by_cases hmem : (src, dest) ∈ E
    · have hd := (hE (src, dest) hmem).2
      simp [hmem, hs, hd, hz]
    · simp [hmem, hz]
  · intro w hw
    rw [hent] at hw
    by_cases hmem : (src, dest) ∈ E
    · have hd : 0 ≤ dest ∧ dest < (n : Int) := (hE (src, dest) hmem).2
      simp only [hmem, hs, hd, hz, and_self, if_true, if_false, Option.some.injEq,
        mul_one_div] at hw
      exact hw.symm
    · simp [hmem, hz] at hw

/-- Witness of C4: three vertices, the edges `(0,1)`, `(0,1)`, `(0,2)`, `alpha = 17/20`, the
source `0` (of outdegree three) and the destination `1`. -/
theorem linked_column_entries_witness :
    ∃ G : Graph ℚ,
      build_google_graph ((3 : Nat) : Int) [(0, 1), (0, 1), (0, 2)] (17 / 20) = some ([], G) ∧
      ((∃ w, entry G 1 0 = some w) ↔ ((0 : Int), (1 : Int)) ∈ [((0 : Int), (1 : Int)), (0, 1), (0, 2)]) ∧
      ∀ w, entry G 1 0 = some w →
        w = (17 / 20) / (outdeg [(0, 1), (0, 1), (0, 2)] 0 : ℚ) + (1 - 17 / 20) / ((3 : Nat) : ℚ) :=
  linked_column_entries 3 (17 / 20) [(0, 1), (0, 1), (0, 2)] (by decide) 0
    ⟨(0, 1), by decide, rfl⟩ 1

/-- C5 at the failing input: for `n = 2`, the edge `(0,1)` and `alpha = 17/20`,
`build_google_graph` returns a graph in which the entry `G[0][0]` is absent (read as `0`),
whereas the Google matrix has `alpha*H[0][0] + (1-alpha)/n = 3/40` at `(src,dest) = (0,0)`. -/
theorem google_matrix_entry_absent :
    ∃ G : Graph ℚ, build_google_graph 2 [(0, 1)] (17 / 20) = some ([], G) ∧
      entry G 0 0 = none ∧ (entry G 0 0).getD 0 = 0 ∧
      google_matrix 2 [(0, 1)] (17 / 20 : ℚ) 0 0 = 3 / 40 := by
  have hmem : ((0 : Int), (0 : Int)) ∉ [((0 : Int), (1 : Int))] := by decide
  have hdeg : outdeg [((0 : Int), (1 : Int))] 0 ≠ 0 := by decide
  refine ⟨_, scenario_B_graph, rfl, rfl, ?_⟩
  simp only [google_matrix, hyperlink_matrix, if_neg hmem, if_neg hdeg]
  norm_num

/-- C6, as amended (exact arithmetic): in exact arithmetic, for every `n ≥ 1`, the directed
`n`-cycle with the edges `(i, (i+1) mod n)`, every `alpha` with `0 < alpha < 1` and every
iteration count `k`, `build_google_graph` returns a graph on which `PageRank` run from the
uniform start vector returns the uniform vector, every entry exactly `1/n`. -/
theorem cycle_pagerank_uniform [LinearOrderedField K] (n : Nat) (hn : 1 ≤ n) (alpha : K)
    (h0 : 0 < alpha) (h1 : alpha < 1) (k : Int) :
    ∃ G : Graph K, build_google_graph (n : Int) (cycle_edges n) alpha = some ([], G) ∧
      PageRank G (initial_pi (n : Int)) k = some (List.replicate n (1 / (n : K))) := by
  obtain ⟨G, hbuild, hlen, hnd, hent⟩ :=
    build_google_graph_spec n (cycle_edges n) alpha (cycle_edges_in_range n)
  have hc := weight_pos n 1 hn alpha h0 h1
  have hrows : ∀ row ∈ G, ∃ key : Int, (0 ≤ key ∧ key < (n : Int)) ∧
      row = [(key, alpha * (1 / ((1 : Nat) : K)) + (1 - alpha) * (1 / (n : K)))] := by
    intro row hrow
    obtain ⟨j, hj, hfind⟩ := find_row_eq_entry G row hrow
    rw [hlen] at hj
    obtain ⟨m, hm⟩ : ∃ m : Nat, m = (j + n - 1) % n := ⟨_, rfl⟩
    have hp : m < n := by rw [hm]; exact Nat.mod_lt _ (by omega)
    refine ⟨(m : Int), ⟨by omega, by omega⟩, ?_⟩
    apply row_eq_singleton row (hnd row hrow)
    intro s
    rw [hfind s, hent]
    have hj' : (0 : Int) ≤ (j : Int) ∧ (j : Int) < (n : Int) := by omega
    by_cases hs : 0 ≤ s ∧ s < (n : Int)
    · obtain ⟨i, rfl⟩ := Int.eq_ofNat_of_zero_le hs.1
      have hi : i < n := by omega
      rw [outdeg_cycle_edges n i hi]
      have hmem : ((i : Int), (j : Int)) ∈ cycle_edges n ↔ i = m := by
        rw [mem_cycle_edges, hm, ← cycle_pred n i j hi hj]
        constructor
        · rintro ⟨i', _, hi1, hi2⟩
          have : i = i' := by omega
          subst this
          omega
        · intro h
          exact ⟨i, hi, rfl, by rw [h]⟩
      by_cases hij : i = m
      · rw [if_pos ⟨hj', hs⟩, if_neg (by decide), if_pos (hmem.mpr hij),
          if_pos (by rw [hij])]
      · have hcast : ¬ (i : Int) = (m : Int) := by omega
        rw [if_pos ⟨hj', hs⟩, if_neg (by decide), if_neg (fun h => hij (hmem.mp h)),
          if_neg hcast]
    · have hne : ¬ s = (m : Int) := by omega
      rw [if_neg (fun h => hs h.2), if_neg hne]
  have hround := round_uniform_of_singleton_rows n hn G hlen _ (ne_of_gt hc) hrows
  refine ⟨G, hbuild, ?_⟩
  unfold PageRank initial_pi
  rw [Int.toNat_ofNat, Int.cast_natCast]
  exact PageRank_loop_fixed G _ hround k.toNat

/-- Witness of C6 as amended (exact arithmetic over the rationals), the instance of the
specification: `n = 3`, the edges `(0,1)`, `(1,2)`,
`(2,0)`, `alpha = 17/20` and twenty rounds give `[1/3, 1/3, 1/3]`. -/
theorem cycle_pagerank_uniform_witness :
    cycle_edges 3 = [(0, 1), (1, 2), (2, 0)] ∧
    ∃ G : Graph ℚ, build_google_graph 3 [(0, 1), (1, 2), (2, 0)] (17 / 20) = some ([], G) ∧
      PageRank G (initial_pi 3) 20 = some [1 / 3, 1 / 3, 1 / 3] := by
  refine ⟨rfl, ?_⟩
  obtain ⟨G, hbuild, hrun⟩ :=
    @cycle_pagerank_uniform ℚ _ 3 (by decide) (17 / 20) (by norm_num) (by norm_num) 20
  exact ⟨G, hbuild, by simpa [List.replicate] using hrun⟩

/-- C6 as stated fails in `double` arithmetic.  On the 3-cycle of the specification with
`alpha = 0.85`, one round from the uniform start vector (every entry the `double` `1.0/3`,
that is `6004799503160661 * 2^-54`) returns the entries `3002399751580331 * 2^-53`, one
unit in the last place above `1.0/3`; and on the 10-cycle twenty rounds return the entries
`900719925474099 * 2^-53`, not the `double` `1.0/10` (`3602879701896397 * 2^-55`).  Every
row of these graphs holds one entry, so the order in which a map is traversed does not
matter.  The instance of the specification itself, twenty rounds on the 3-cycle, does
return the start vector. -/
theorem cycle_pagerank_uniform_counterexample :
    (∃ (G : Graph Double) (pi0 p : List Double),
      build_google_graph_double 3 [(0, 1), (1, 2), (2, 0)] (Double.round 17 20 0) =
        some ([], G) ∧
      initial_pi_double 3 = some pi0 ∧
      pi0 = [⟨6004799503160661, -54⟩, ⟨6004799503160661, -54⟩, ⟨6004799503160661, -54⟩] ∧
      PageRank_double G pi0 1 = some p ∧
      p = [⟨3002399751580331, -53⟩, ⟨3002399751580331, -53⟩, ⟨3002399751580331, -53⟩] ∧
      p ≠ pi0 ∧ PageRank_double G pi0 20 = some pi0) ∧
    (∃ (G : Graph Double) (p : List Double),
      build_google_graph_double 10 (cycle_edges 10) (Double.round 17 20 0) = some ([], G) ∧
      (initial_pi_double 10).bind (fun pi0 => PageRank_double G pi0 20) = some p ∧
      p = List.replicate 10 ⟨900719925474099, -53⟩ ∧
      initial_pi_double 10 = some (List.replicate 10 ⟨3602879701896397, -55⟩)) := by
  constructor
  · exact ⟨[[(2, ⟨8106479329266893, -53⟩)], [(0, ⟨8106479329266893, -53⟩)],
        [(1, ⟨8106479329266893, -53⟩)]], _, _, by decide!, by decide!, rfl, by decide!,
      rfl, by decide!, by decide!⟩
  · obtain ⟨G, hG, hrun⟩ := build_double_of_parts 10 (cycle_edges 10) (Double.round 17 20 0)
      (fun G => (initial_pi_double 10).bind (fun pi0 => PageRank_double G pi0 20))
      (List.replicate 10 ⟨900719925474099, -53⟩) (by decide!) (by decide!)
    exact ⟨G, _, hG, hrun, rfl, by decide!⟩

/-- C7: for `n = 2`, the edge `(0,1)` and `alpha = 17/20` (over the reals),
`build_google_graph` returns exactly `G[0] = {1 -> 1/2}` and
`G[1] = {0 -> 37/40, 1 -> 1/2}`; one round of `PageRank` maps every vector `(x, 1-x)` with
`x ≤ 1` (so every one with `0 ≤ x ≤ 1`) to `(x', 1-x')` with `x' = 20(1-x)/(40-3x)`; the
round leaves the vector unchanged if and only if `3x^2 - 60x + 20 = 0`, which for such `x`
happens exactly at `x = 10 - sqrt(280/3)`, a number between `0.33908` and `0.33909`, so
that vertex 1 holds between `0.66091` and `0.66092`. -/
theorem scenario_B_fixed_point (x : ℝ) (hx1 : x ≤ 1) :
    ∃ G : Graph ℝ, build_google_graph 2 [(0, 1)] (17 / 20) = some ([], G) ∧
      G = [[(1, 1 / 2)], [(0, 37 / 40), (1, 1 / 2)]] ∧
      PageRank_round G [x, 1 - x] =
        some [20 * (1 - x) / (40 - 3 * x), 1 - 20 * (1 - x) / (40 - 3 * x)] ∧
      (PageRank_round G [x, 1 - x] = some [x, 1 - x] ↔ 3 * x ^ 2 - 60 * x + 20 = 0) ∧
      (3 * x ^ 2 - 60 * x + 20 = 0 ↔ x = 10 - Real.sqrt (280 / 3)) ∧
      (0.33908 < 10 - Real.sqrt (280 / 3) ∧ 10 - Real.sqrt (280 / 3) < 0.33909) ∧
      (0.66091 < 1 - (10 - Real.sqrt (280 / 3)) ∧
        1 - (10 - Real.sqrt (280 / 3)) < 0.66092) := by
  have hd : 40 - 3 * x ≠ 0 := by linarith
  have hround := scenario_B_round x hd
  have hsq : Real.sqrt (280 / 3) ^ 2 = 280 / 3 := Real.sq_sqrt (by norm_num)
  have hlo : (9.66091 : ℝ) < Real.sqrt (280 / 3) := by
    rw [Real.lt_sqrt (by norm_num)]
    norm_num
  have hhi : Real.sqrt (280 / 3) < (9.66092 : ℝ) := by
    rw [Real.sqrt_lt' (by norm_num)]
    norm_num
  refine ⟨_, scenario_B_graph, rfl, hround, ?_, ?_, ⟨?_, ?_⟩, ⟨?_, ?_⟩⟩
  · rw [hround]
    simp only [Option.some.injEq, List.cons.injEq, and_true]
    constructor
    · rintro ⟨h, -⟩
      rw [div_eq_iff hd] at h
      linarith
    · intro h
      have h1 : 20 * (1 - x) / (40 - 3 * x) = x := by
        rw [div_eq_iff hd]
        linarith
      exact ⟨h1, by rw [h1]⟩
  · constructor
    · intro h
      have hfac : (x - (10 - Real.sqrt (280 / 3))) * (x - (10 + Real.sqrt (280 / 3))) = 0 := by
        nlinarith
      rcases mul_eq_zero.mp hfac with h1 | h1
      · linarith
      · exfalso
        linarith
    · intro h
      rw [h]
      nlinarith
  · linarith
  · linarith
  · linarith
  · linarith

/-- Witness of C7: the vector `(1/2, 1/2)`. -/
theorem scenario_B_fixed_point_witness :
    ∃ G : Graph ℝ, build_google_graph 2 [(0, 1)] (17 / 20) = some ([], G) ∧
      G = [[(1, 1 / 2)], [(0, 37 / 40), (1, 1 / 2)]] ∧
      PageRank_round G [1 / 2, 1 - 1 / 2] =
        some [20 * (1 - 1 / 2) / (40 - 3 * (1 / 2)),
          1 - 20 * (1 - 1 / 2) / (40 - 3 * (1 / 2))] ∧
      (PageRank_round G [1 / 2, 1 - 1 / 2] = some [1 / 2, 1 - 1 / 2] ↔
        3 * (1 / 2 : ℝ) ^ 2 - 60 * (1 / 2) + 20 = 0) ∧
      (3 * (1 / 2 : ℝ) ^ 2 - 60 * (1 / 2) + 20 = 0 ↔ (1 / 2 : ℝ) = 10 - Real.sqrt (280 / 3)) ∧
      (0.33908 < 10 - Real.sqrt (280 / 3) ∧ 10 - Real.sqrt (280 / 3) < 0.33909) ∧
      (0.66091 < 1 - (10 - Real.sqrt (280 / 3)) ∧
        1 - (10 - Real.sqrt (280 / 3)) < 0.66092) :=
  scenario_B_fixed_point (1 / 2) (by norm_num)

/-- C8, as amended (exact arithmetic): in exact arithmetic, for `n = 2`, the edge `(0,1)`,
`alpha = 17/20` and the uniform start vector, the results `pi_k`, `pi_(k+1)`, `pi_(k+2)`
of `PageRank` after `k`, `k+1` and `k+2` rounds are defined for every `k ≥ 0`, and the L1
distance between `pi_(k+2)` and `pi_(k+1)` is strictly smaller than the L1 distance
between `pi_(k+1)` and `pi_k`. -/
theorem scenario_B_distances_decrease [LinearOrderedField K] (k : Nat) :
    ∃ G : Graph K, build_google_graph 2 [(0, 1)] (17 / 20 : K) = some ([], G) ∧
      ∃ p0 p1 p2 : List K, PageRank G (initial_pi 2) (k : Int) = some p0 ∧
        PageRank G (initial_pi 2) ((k : Int) + 1) = some p1 ∧
        PageRank G (initial_pi 2) ((k : Int) + 2) = some p2 ∧
        l1_dist p2 p1 < l1_dist p1 p0 := by
  obtain ⟨x, ⟨hx0, hx1⟩, hne, hk⟩ := @scenario_B_iterates K _ k
  obtain ⟨hs0, hs1⟩ := scenario_B_step_range x hx0 hx1
  have hinit : (initial_pi 2 : List K) = [1 / 2, 1 / 2] := by
    simp [initial_pi, List.replicate]
  have e1 : ((k : Int) + 1) = ((k + 1 : Nat) : Int) := by push_cast; rfl
  have e2 : ((k : Int) + 2) = ((k + 1 + 1 : Nat) : Int) := by push_cast; ring
  have hk1 : PageRank_loop ([[(1, 1 / 2)], [(0, 37 / 40), (1, 1 / 2)]] : Graph K) (k + 1)
      [1 / 2, 1 / 2] = some [scenario_B_step x, 1 - scenario_B_step x] := by
    rw [PageRank_loop_succ, hk]
    exact scenario_B_round_step x hx1
  have hk2 : PageRank_loop ([[(1, 1 / 2)], [(0, 37 / 40), (1, 1 / 2)]] : Graph K)
      (k + 1 + 1) [1 / 2, 1 / 2] =
      some [scenario_B_step (scenario_B_step x), 1 - scenario_B_step (scenario_B_step x)] := by
    rw [PageRank_loop_succ, hk1]
    exact scenario_B_round_step _ hs1
  refine ⟨_, scenario_B_graph, [x, 1 - x], [scenario_B_step x, 1 - scenario_B_step x],
    [scenario_B_step (scenario_B_step x), 1 - scenario_B_step (scenario_B_step x)],
    ?_, ?_, ?_, ?_⟩
  · rw [PageRank_natCast, hinit, hk]
  · rw [e1, PageRank_natCast, hinit, hk1]
  · rw [e2, PageRank_natCast, hinit, hk2]
  · rw [l1_dist_pair, l1_dist_pair]
    have := scenario_B_step_contracts (scenario_B_step x) x hs0 hs1 hx0 hx1 hne
    linarith

/-- C8 as stated fails in `double` arithmetic at `k = 50`.  For `n = 2`, the edge `(0,1)`,
`alpha = 0.85` and the uniform start vector, the vectors after 50, 51 and 52 rounds are
`pi_50 = pi_52` and a different `pi_51` (the run alternates between two neighbouring
vectors), so the L1 distance between `pi_52` and `pi_51` equals the one between `pi_51`
and `pi_50` and is not strictly smaller.  The rows of this graph hold at most two entries,
for which the order of traversal does not change a `double` sum. -/
theorem scenario_B_distances_decrease_counterexample :
    ∃ (G : Graph Double) (pi0 p50 p51 p52 : List Double),
      build_google_graph_double 2 [(0, 1)] (Double.round 17 20 0) = some ([], G) ∧
      initial_pi_double 2 = some pi0 ∧
      PageRank_double G pi0 50 = some p50 ∧ PageRank_double G pi0 51 = some p51 ∧
      PageRank_double G pi0 52 = some p52 ∧
      p50 = [⟨6108361323555237, -54⟩, ⟨5953018592963373, -53⟩] ∧
      p51 = [⟨1527090330888809, -52⟩, ⟨5953018592963375, -53⟩] ∧
      p52 = p50 ∧ p51 ≠ p50 ∧
      l1_dist (p52.map Double.toRat) (p51.map Double.toRat) =
        l1_dist (p51.map Double.toRat) (p50.map Double.toRat) ∧
      ¬ (l1_dist (p52.map Double.toRat) (p51.map Double.toRat) <
        l1_dist (p51.map Double.toRat) (p50.map Double.toRat)) := by
  have hdist : l1_dist
      (([⟨6108361323555237, -54⟩, ⟨5953018592963373, -53⟩] : List Double).map Double.toRat)
      (([⟨1527090330888809, -52⟩, ⟨5953018592963375, -53⟩] : List Double).map Double.toRat) =
      l1_dist
      (([⟨1527090330888809, -52⟩, ⟨5953018592963375, -53⟩] : List Double).map Double.toRat)
      (([⟨6108361323555237, -54⟩, ⟨5953018592963373, -53⟩] : List Double).map Double.toRat) := by
    simp only [List.map_cons, List.map_nil]
    exact l1_dist_pair_comm _ _ _ _
  refine ⟨_, _, [⟨6108361323555237, -54⟩, ⟨5953018592963373, -53⟩],
    [⟨1527090330888809, -52⟩, ⟨5953018592963375, -53⟩],
    [⟨6108361323555237, -54⟩, ⟨5953018592963373, -53⟩],
    scenario_B_graph_double, initial_pi_double_two, by decide!, by decide!, by decide!,
    rfl, rfl, rfl, by decide!, hdist, ?_⟩
  rw [hdist]
  exact lt_irrefl _

/-- C9: for `n = 1` with an empty edge list, every `alpha` and every iteration count `k`,
`build_google_graph` returns `G[0] = {0 -> 1}`, the start vector of `main` is `[1]`, and
`PageRank` run from `[1]` returns exactly `[1]`. -/
theorem single_vertex_rank_one [LinearOrderedField K] (alpha : K) (k : Int) :
    ∃ G : Graph K, build_google_graph 1 [] alpha = some ([], G) ∧ G = [[(0, 1)]] ∧
      (initial_pi 1 : List K) = [1] ∧ PageRank G [1] k = some [1] := by
  have hround : PageRank_round ([[(0, 1)]] : Graph K) [1] = some [1] := by
    simp [PageRank_round, next_vector, for_each_row, row_sum, vec_get, L1_sum]
  refine ⟨[[(0, 1)]], ?_, rfl, ?_, ?_⟩
  · simp [build_google_graph, drain, normalize_links, for_each_row, normalize_row,
      dangling_fill, fill_column, damping, assign]
  · simp [initial_pi, List.replicate]
  · exact PageRank_loop_fixed _ _ hround k.toNat

/-- C10: for every `G`, every `pi` and all `a, b ≥ 0`, `PageRank(G, pi, 0)` returns `pi`
unchanged, `PageRank(G, pi, a+b)` is `PageRank(G, PageRank(G, pi, a), b)` (undefined when
the first run is), and `PageRank(G, pi, a)` is the `a`-fold application of the single
round to `pi`, whether or not the vector has stopped changing. -/
theorem pagerank_exactly_k_rounds [LinearOrderedField K] (G : Graph K) (pi : List K)
    (a b : Int) (ha : 0 ≤ a) (hb : 0 ≤ b) :
    PageRank G pi 0 = some pi ∧
      PageRank G pi (a + b) = (PageRank G pi a).bind (fun p => PageRank G p b) ∧
      PageRank G pi a = (fun o => Option.bind o (PageRank_round G))^[a.toNat] (some pi) := by
  refine ⟨rfl, ?_, ?_⟩
  · unfold PageRank
    rw [Int.toNat_add ha hb, PageRank_loop_add]
  · unfold PageRank
    generalize a.toNat = m
    induction m with
    | zero => rfl
    | succ m ih => rw [PageRank_loop_succ, ih, Function.iterate_succ_apply']

/-- Witness of C10: scenario B's graph, the start vector `[1/2, 1/2]`, `a = 2`, `b = 3`. -/
theorem pagerank_exactly_k_rounds_witness :
    PageRank ([[(1, 1 / 2)], [(0, 37 / 40), (1, 1 / 2)]] : Graph ℚ) [1 / 2, 1 / 2] 0 =
        some [1 / 2, 1 / 2] ∧
      PageRank ([[(1, 1 / 2)], [(0, 37 / 40), (1, 1 / 2)]] : Graph ℚ) [1 / 2, 1 / 2] (2 + 3) =
        (PageRank ([[(1, 1 / 2)], [(0, 37 / 40), (1, 1 / 2)]] : Graph ℚ) [1 / 2, 1 / 2] 2).bind
          (fun p => PageRank [[(1, 1 / 2)], [(0, 37 / 40), (1, 1 / 2)]] p 3) ∧
      PageRank ([[(1, 1 / 2)], [(0, 37 / 40), (1, 1 / 2)]] : Graph ℚ) [1 / 2, 1 / 2] 2 =
        (fun o => Option.bind o
          (PageRank_round [[(1, 1 / 2)], [(0, 37 / 40), (1, 1 / 2)]]))^[(2 : Int).toNat]
          (some [1 / 2, 1 / 2]) :=
  pagerank_exactly_k_rounds [[(1, 1 / 2)], [(0, 37 / 40), (1, 1 / 2)]] [1 / 2, 1 / 2] 2 3
    (by decide) (by decide)

/-- C11: for every `n` (in particular every `n > 0`), every `alpha` and every in-range edge
list `E`, `build_google_graph` returns and leaves the edge list empty; its drain loop is `E.length`
executions of the loop body, after `j` of which the edge list is `E` without its first
`j` edges (so the body executed next pops the edge at position `j`: every edge is consumed
exactly once), and after the last of which the list is empty. -/
theorem edge_list_drained [LinearOrderedField K] (n : Nat) (alpha : K)
    (E : List (Int × Int)) (hE : edges_in_range n E) :
    (∃ G : Graph K, build_google_graph (n : Int) E alpha = some ([], G)) ∧
      (∃ (G1 : Graph K) (outlinks : List Nat),
        drain E (List.replicate n ([] : Row K)) (List.replicate n 0) =
          some ([], G1, outlinks) ∧
        drain_steps E.length (E, List.replicate n ([] : Row K), List.replicate n 0) =
          some ([], G1, outlinks)) ∧
      ∀ j : Nat, j ≤ E.length → ∃ (Gj : Graph K) (outj : List Nat),
        drain_steps j (E, List.replicate n ([] : Row K), List.replicate n 0) =
          some (E.drop j, Gj, outj) := by
  obtain ⟨G, hbuild, -⟩ := build_google_graph_spec n E alpha hE
  refine ⟨⟨G, hbuild⟩, ?_, ?_⟩
  · obtain ⟨G1, outlinks, hdr, -⟩ :=
      drain_spec n E hE (List.replicate n ([] : Row K)) (List.replicate n 0)
        (by simp) (by simp) (by
          intro row hrow
          rw [List.eq_of_mem_replicate hrow]
          simp [keys])
    exact ⟨G1, outlinks, hdr, by rw [← drain_eq_drain_steps, hdr]⟩
  · intro j hj
    exact drain_steps_drop n j E _ _ hE (by simp) (by simp) hj

/-- Witness of C11: three vertices and the edges `(0,1)`, `(0,1)`, `(2,0)`. -/
theorem edge_list_drained_witness :
    (∃ G : Graph ℚ, build_google_graph ((3 : Nat) : Int) [(0, 1), (0, 1), (2, 0)] (17 / 20) =
        some ([], G)) ∧
      (∃ (G1 : Graph ℚ) (outlinks : List Nat),
        drain [(0, 1), (0, 1), (2, 0)] (List.replicate 3 ([] : Row ℚ)) (List.replicate 3 0) =
          some ([], G1, outlinks) ∧
        drain_steps ([((0 : Int), (1 : Int)), (0, 1), (2, 0)]).length
            ([(0, 1), (0, 1), (2, 0)], List.replicate 3 ([] : Row ℚ), List.replicate 3 0) =
          some ([], G1, outlinks)) ∧
      ∀ j : Nat, j ≤ ([((0 : Int), (1 : Int)), (0, 1), (2, 0)]).length →
        ∃ (Gj : Graph ℚ) (outj : List Nat),
          drain_steps j
              ([(0, 1), (0, 1), (2, 0)], List.replicate 3 ([] : Row ℚ), List.replicate 3 0) =
            some (([((0 : Int), (1 : Int)), (0, 1), (2, 0)]).drop j, Gj, outj) :=
  edge_list_drained 3 (17 / 20) [(0, 1), (0, 1), (2, 0)] (by decide)

/-- C13: for every `n > 0` and every in-range edge list, the drain loop of
`build_google_graph` returns a state `(G, outlinks)` in which every key `src` found in any
`G[dest]` has `outlinks[src] ≥ 1`, so the link pass, which runs on that state and returns,
divides by a non-zero count only; a vertex with `outlinks[src] = 0` is a key of no row at
that point, and the dangling pass that handles it divides by `n`, which is non-zero. -/
theorem link_pass_divisors_nonzero [LinearOrderedField K] (n : Nat) (hn : 0 < n)
    (E : List (Int × Int)) (hE : edges_in_range n E) :
    ∃ (G1 : Graph K) (outlinks : List Nat),
      drain E (List.replicate n ([] : Row K)) (List.replicate n 0) =
        some ([], G1, outlinks) ∧
      (∃ G2, normalize_links outlinks G1 = some G2) ∧
      (∀ row ∈ G1, ∀ src ∈ keys row,
        ∃ c : Nat, vec_get outlinks src = some c ∧ 1 ≤ c ∧ (c : K) ≠ 0) ∧
      (∀ src : Int, vec_get outlinks src = some 0 → ∀ row ∈ G1, src ∉ keys row) ∧
      (n : K) ≠ 0 := by
  obtain ⟨G1, outlinks, hdr, -, -, -, hent, hout⟩ :=
    drain_spec n E hE (List.replicate n ([] : Row K)) (List.replicate n 0)
      (by simp) (by simp) (replicate_nil_nodup n)
  have hcount : ∀ row ∈ G1, ∀ src ∈ keys row,
      ∃ c : Nat, vec_get outlinks src = some c ∧ 1 ≤ c ∧ (c : K) ≠ 0 := by
    intro row hrow src hsrc
    obtain ⟨d, w, hw⟩ := entry_of_mem_row G1 row hrow src hsrc
    rw [hent, entry_replicate_nil] at hw
    by_cases hmem : (src, d) ∈ E
    · have hr := (hE (src, d) hmem).1
      have hlt : src.toNat < n := by omega
      have h := hout src 0 (by simp [vec_get, not_lt.mpr hr.1, hlt])
      have hpos := outdeg_pos_of_mem E src d hmem
      refine ⟨0 + outdeg E src, h, by omega, ?_⟩
      exact Nat.cast_ne_zero.mpr (by omega)
    · simp [hmem] at hw
  refine ⟨G1, outlinks, hdr, ?_, hcount, ?_, Nat.cast_ne_zero.mpr (by omega)⟩
  · apply for_each_row_succeeds
    intro row hrow
    apply normalize_row_succeeds
    intro k hk
    obtain ⟨c, hc, -⟩ := hcount row hrow k hk
    exact ⟨c, hc⟩
  · intro src hzero row hrow hsrc
    obtain ⟨c, hc, hpos, -⟩ := hcount row hrow src hsrc
    rw [hzero] at hc
    simp only [Option.some.injEq] at hc
    omega

/-- Witness of C13: three vertices and the edges `(0,1)`, `(0,1)`, `(2,0)`; vertex 1 has
no outgoing edge. -/
theorem link_pass_divisors_nonzero_witness :
    ∃ (G1 : Graph ℚ) (outlinks : List Nat),
      drain [(0, 1), (0, 1), (2, 0)] (List.replicate 3 ([] : Row ℚ)) (List.replicate 3 0) =
        some ([], G1, outlinks) ∧
      (∃ G2, normalize_links outlinks G1 = some G2) ∧
      (∀ row ∈ G1, ∀ src ∈ keys row,
        ∃ c : Nat, vec_get outlinks src = some c ∧ 1 ≤ c ∧ (c : ℚ) ≠ 0) ∧
      (∀ src : Int, vec_get outlinks src = some 0 → ∀ row ∈ G1, src ∉ keys row) ∧
      ((3 : Nat) : ℚ) ≠ 0 :=
  link_pass_divisors_nonzero 3 (by decide) [(0, 1), (0, 1), (2, 0)] (by decide)

/-- C16: if every edge's `src` and `dest` lie in `[0,n)` (for every `n`, in particular
`n > 0`), then `build_google_graph` returns, that is, no access to `G` or `outlinks` is
out of range; the resulting `G` has exactly `n` rows and every key stored in any row lies
in `[0,n)`; and `PageRank` on that `G` with any start vector of length `n` returns for
every iteration count, that is, no read `pi[i]` is out of range in any round. -/
theorem index_safety [LinearOrderedField K] (n : Nat) (alpha : K) (E : List (Int × Int))
    (hE : edges_in_range n E) :
    ∃ G : Graph K, build_google_graph (n : Int) E alpha = some ([], G) ∧ G.length = n ∧
      (∀ row ∈ G, ∀ k ∈ keys row, 0 ≤ k ∧ k < (n : Int)) ∧
      ∀ (pi : List K) (k : Int), pi.length = n →
        ∃ pi', PageRank G pi k = some pi' ∧ pi'.length = n := by
  obtain ⟨G, hbuild, hlen, hkeys⟩ := build_google_graph_keys n E alpha hE
  exact ⟨G, hbuild, hlen, hkeys, fun pi k hpi =>
    PageRank_loop_defined n G hlen hkeys k.toNat pi hpi⟩

/-- Witness of C16: three vertices, the edges `(0,1)`, `(0,1)`, `(2,0)`, `alpha = 17/20`. -/
theorem index_safety_witness :
    ∃ G : Graph ℚ,
      build_google_graph ((3 : Nat) : Int) [(0, 1), (0, 1), (2, 0)] (17 / 20) = some ([], G) ∧
      G.length = 3 ∧ (∀ row ∈ G, ∀ k ∈ keys row, 0 ≤ k ∧ k < ((3 : Nat) : Int)) ∧
      ∀ (pi : List ℚ) (k : Int), pi.length = 3 →
        ∃ pi', PageRank G pi k = some pi' ∧ pi'.length = 3 :=
  index_safety 3 (17 / 20) [(0, 1), (0, 1), (2, 0)] (by decide)

/-- C18: for every `n > 0`, every `alpha` with `0 < alpha < 1` and every in-range edge
list, every entry stored in the graph that `build_google_graph` returns has a value `w`
with `0 < w ≤ 1`, in particular never the placeholder `-1`, and every vertex `src` in
`[0,n)` has at least one present entry `G[dest][src]`. -/
theorem stored_weights_are_probabilities [LinearOrderedField K] (n : Nat) (hn : 0 < n)
    (alpha : K) (h0 : 0 < alpha) (h1 : alpha < 1) (E : List (Int × Int))
    (hE : edges_in_range n E) :
    ∃ G : Graph K, build_google_graph (n : Int) E alpha = some ([], G) ∧
      (∀ row ∈ G, ∀ e ∈ row, (0 < e.2 ∧ e.2 ≤ 1) ∧ e.2 ≠ -1) ∧
      (∀ (dest src : Int) (w : K), entry G dest src = some w → (0 < w ∧ w ≤ 1) ∧ w ≠ -1) ∧
      ∀ src : Int, 0 ≤ src → src < (n : Int) →
        ∃ (dest : Int) (w : K), (0 ≤ dest ∧ dest < (n : Int)) ∧ entry G dest src = some w := by
  obtain ⟨G, hbuild, -, hnd, hent⟩ := build_google_graph_spec n E alpha hE
  have hval : ∀ (dest src : Int) (w : K), entry G dest src = some w →
      (0 < w ∧ w ≤ 1) ∧ w ≠ -1 := by
    intro dest src w hw
    have hw' := hw
    rw [hent] at hw
    by_cases hr : (0 ≤ dest ∧ dest < (n : Int)) ∧ (0 ≤ src ∧ src < (n : Int))
    · rw [if_pos hr] at hw
      have key : ∃ c : Nat, 0 < c ∧ w = alpha * (1 / (c : K)) + (1 - alpha) * (1 / (n : K)) := by
        by_cases hz : outdeg E src = 0
        · rw [if_pos hz] at hw
          exact ⟨n, hn, (Option.some.inj hw).symm⟩
        · rw [if_neg hz] at hw
          by_cases hmem : (src, dest) ∈ E
          · rw [if_pos hmem] at hw
            exact ⟨outdeg E src, Nat.pos_of_ne_zero hz, (Option.some.inj hw).symm⟩
          · rw [if_neg hmem] at hw
            exact absurd hw (by simp)
      obtain ⟨c, hc, rfl⟩ := key
      have hp := weight_pos n c hn alpha h0 h1
      exact ⟨⟨hp, weight_le_one n c hn hc alpha h0 h1⟩, by linarith⟩
    · rw [if_neg hr] at hw
      exact absurd hw (by simp)
  refine ⟨G, hbuild, ?_, hval, ?_⟩
  · intro row hrow e he
    obtain ⟨k, w⟩ := e
    obtain ⟨i, hi⟩ := List.mem_iff_getElem?.mp hrow
    exact hval (i : Int) k w (entry_of_mem G hnd i row hi k w he)
  · intro src hs0 hs1
    by_cases hz : outdeg E src = 0
    · have hr : (0 : Int) ≤ 0 ∧ (0 : Int) < (n : Int) := ⟨le_refl _, by omega⟩
      refine ⟨0, alpha * (1 / (n : K)) + (1 - alpha) * (1 / (n : K)), hr, ?_⟩
      rw [hent, if_pos ⟨hr, hs0, hs1⟩, if_pos hz]
    · obtain ⟨d, hd⟩ := exists_mem_of_outdeg_pos E src (Nat.pos_of_ne_zero hz)
      have hr := (hE (src, d) hd).2
      refine ⟨d, alpha * (1 / (outdeg E src : K)) + (1 - alpha) * (1 / (n : K)), hr, ?_⟩
      rw [hent, if_pos ⟨hr, hs0, hs1⟩, if_neg hz, if_pos hd]

/-- Witness of C18: three vertices, the edges `(0,1)`, `(0,1)`, `(2,0)`, `alpha = 17/20`. -/
theorem stored_weights_are_probabilities_witness :
    ∃ G : Graph ℚ,
      build_google_graph ((3 : Nat) : Int) [(0, 1), (0, 1), (2, 0)] (17 / 20) = some ([], G) ∧
      (∀ row ∈ G, ∀ e ∈ row, (0 < e.2 ∧ e.2 ≤ 1) ∧ e.2 ≠ -1) ∧
      (∀ (dest src : Int) (w : ℚ), entry G dest src = some w → (0 < w ∧ w ≤ 1) ∧ w ≠ -1) ∧
      ∀ src : Int, 0 ≤ src → src < ((3 : Nat) : Int) →
        ∃ (dest : Int) (w : ℚ),
          (0 ≤ dest ∧ dest < ((3 : Nat) : Int)) ∧ entry G dest src = some w :=
  stored_weights_are_probabilities 3 (by decide) (17 / 20) (by norm_num) (by norm_num)
    [(0, 1), (0, 1), (2, 0)] (by decide)

/-- C19: for every `n` (in particular `n > 0`), every `alpha` and any two in-range edge
lists that are permutations of each other, `build_google_graph` returns graphs with the
same number of rows and the same entries: `G[dest][src]` is present in one exactly when it
is present in the other, with the same value. -/
theorem edge_order_irrelevant [LinearOrderedField K] (n : Nat) (alpha : K)
    (E1 E2 : List (Int × Int)) (hperm : E1.Perm E2) (hE : edges_in_range n E1) :
    edges_in_range n E2 ∧
      ∃ G1 G2 : Graph K, build_google_graph (n : Int) E1 alpha = some ([], G1) ∧
        build_google_graph (n : Int) E2 alpha = some ([], G2) ∧ G1.length = G2.length ∧
        ∀ dest src : Int, entry G1 dest src = entry G2 dest src := by
  have hE2 : edges_in_range n E2 := fun e he => hE e (hperm.mem_iff.mpr he)
  obtain ⟨G1, hb1, hl1, -, hent1⟩ := build_google_graph_spec n E1 alpha hE
  obtain ⟨G2, hb2, hl2, -, hent2⟩ := build_google_graph_spec n E2 alpha hE2
  refine ⟨hE2, G1, G2, hb1, hb2, by rw [hl1, hl2], ?_⟩
  intro dest src
  have hdeg : outdeg E1 src = outdeg E2 src := hperm.countP_eq _
  have hmem : (src, dest) ∈ E1 ↔ (src, dest) ∈ E2 := hperm.mem_iff
  rw [hent1, hent2, hdeg]
  simp only [hmem]

/-- Witness of C19: three vertices, `alpha = 17/20`, the edges `(0,1)`, `(0,2)`, `(2,0)`
and the same edges in the order `(2,0)`, `(0,2)`, `(0,1)`. -/
theorem edge_order_irrelevant_witness :
    edges_in_range ((3 : Nat) : Int) [(2, 0), (0, 2), (0, 1)] ∧
      ∃ G1 G2 : Graph ℚ,
        build_google_graph ((3 : Nat) : Int) [(0, 1), (0, 2), (2, 0)] (17 / 20) =
          some ([], G1) ∧
        build_google_graph ((3 : Nat) : Int) [(2, 0), (0, 2), (0, 1)] (17 / 20) =
          some ([], G2) ∧
        G1.length = G2.length ∧ ∀ dest src : Int, entry G1 dest src = entry G2 dest src :=
  edge_order_irrelevant 3 (17 / 20) [(0, 1), (0, 2), (2, 0)] [(2, 0), (0, 2), (0, 1)]
    (by decide) (by decide)

/-- C14: for every `G` with `n` rows whose keys lie in `[0,n)` (the keys of one
`unordered_map` being pairwise distinct) and every vector `pi` of length `n`, the
multiplication of one round of `PageRank` returns a vector `next_pi` of length `n` with
`next_pi[j] = sum over i in [0,n) of pi[i]*M[i][j]` for every `j` in `[0,n)`, where
`M[i][j]` is `G[j][i]` if that entry is present and `0` otherwise; the sum reads the
vector `pi` the round started from only, and the round's result is `next_pi` divided by
its sum. -/
theorem sparse_multiplication_is_dense_product [LinearOrderedField K] (n : Nat)
    (G : Graph K) (pi : List K) (hlen : G.length = n)
    (hnd : ∀ row ∈ G, (keys row).Nodup)
    (hkeys : ∀ row ∈ G, ∀ k ∈ keys row, 0 ≤ k ∧ k < (n : Int)) (hpi : pi.length = n) :
    ∃ next_pi : List K, next_vector pi G = some next_pi ∧ next_pi.length = n ∧
      (∀ j : Nat, j < n → next_pi[j]? = some (dense_product n pi G j)) ∧
      PageRank_round G pi = some (next_pi.map (fun x => x / L1_sum next_pi)) := by
  have hread : ∀ row ∈ G, ∀ k ∈ keys row, ∃ p, vec_get pi k = some p := by
    intro row hrow k hk
    have := hkeys row hrow k hk
    exact vec_get_in_range pi k this.1 (by rw [hpi]; exact this.2)
  have hnext := next_vector_eq pi G hread
  refine ⟨G.map (row_value pi), hnext, by simp [hlen], ?_, by simp only [PageRank_round, hnext]⟩
  intro j hj
  have hjlt : j < G.length := by omega
  rw [List.getElem?_map, List.getElem?_eq_getElem hjlt, Option.map_some']
  have hrow : G[j] ∈ G := List.getElem_mem hjlt
  rw [row_value_eq_dense n pi G[j] (hnd _ hrow) (hkeys _ hrow)]
  unfold dense_product dense_matrix
  congr 1
  apply Finset.sum_congr rfl
  intro i _
  simp [entry, vec_get_natCast, List.getElem?_eq_getElem hjlt, List.getD_eq_getElem?_getD]

/-- Witness of C14: the graph of scenario B (`G[0] = {1 -> 1/2}`,
`G[1] = {0 -> 37/40, 1 -> 1/2}`) and the vector `[1/4, 3/4]`. -/
theorem sparse_multiplication_is_dense_product_witness :
    ∃ next_pi : List ℚ,
      next_vector [1 / 4, 3 / 4] [[(1, 1 / 2)], [(0, 37 / 40), (1, 1 / 2)]] = some next_pi ∧
      next_pi.length = 2 ∧
      (∀ j : Nat, j < 2 → next_pi[j]? =
        some (dense_product 2 [1 / 4, 3 / 4] [[(1, 1 / 2)], [(0, 37 / 40), (1, 1 / 2)]] j)) ∧
      PageRank_round [[(1, 1 / 2)], [(0, 37 / 40), (1, 1 / 2)]] [1 / 4, 3 / 4] =
        some (next_pi.map (fun x => x / L1_sum next_pi)) :=
  sparse_multiplication_is_dense_product 2 [[(1, 1 / 2)], [(0, 37 / 40), (1, 1 / 2)]]
    [1 / 4, 3 / 4] rfl (by simp [keys])
    (by
      intro row hrow k hk
      simp only [List.mem_cons, List.mem_singleton, List.not_mem_nil, or_false] at hrow
      rcases hrow with h | h <;> subst h <;>
        simp only [keys, List.map_cons, List.map_nil, List.mem_cons, List.mem_singleton,
          List.not_mem_nil, or_false] at hk
      · subst hk; decide
      · rcases hk with h | h <;> subst h <;> decide)
    rfl

/-- C12 at the failing input: for `n = 2` and the edge list `(0,1)`, `(0,1)` (the same
edge twice), the drain loop returns `outlinks = [2, 0]` and a single entry `G[1][0]`; the
link pass, on whose result `build_google_graph` goes on with the dangling and the damping
pass, sets that entry to `1/2`, so the entries of the source `0` sum to `1/2`, not to `1`. -/
theorem link_pass_repeated_edge_column :
    ∃ (G1 G2 : Graph ℚ) (outlinks : List Nat),
      drain [(0, 1), (0, 1)] (List.replicate 2 ([] : Row ℚ)) (List.replicate 2 0) =
        some ([], G1, outlinks) ∧
      outlinks = [2, 0] ∧ normalize_links outlinks G1 = some G2 ∧
      G2 = [[], [(0, 1 / 2)]] ∧ column_sum G2 0 = 1 / 2 ∧ column_sum G2 0 ≠ 1 ∧
      build_google_graph 2 [(0, 1), (0, 1)] (17 / 20 : ℚ) =
        some ([], damping (17 / 20) ((1 - 17 / 20) * (1 / 2))
          (dangling_fill outlinks (1 / 2) 2 G2)) := by
  have hdrain : drain [(0, 1), (0, 1)] (List.replicate 2 ([] : Row ℚ)) (List.replicate 2 0) =
      some ([], [[], [(0, -1)]], [2, 0]) := by
    simp [drain, vec_update, vec_get, assign]
  have hnorm : normalize_links [2, 0] ([[], [(0, -1)]] : Graph ℚ) =
      some [[], [(0, 1 / 2)]] := by
    simp [normalize_links, for_each_row, normalize_row, vec_get]
  have hsum : column_sum ([[], [(0, 1 / 2)]] : Graph ℚ) 0 = 1 / 2 := by
    simp [column_sum, find]
  refine ⟨[[], [(0, -1)]], [[], [(0, 1 / 2)]], [2, 0], hdrain, rfl, hnorm, rfl, hsum, ?_, ?_⟩
  · rw [hsum]
    norm_num
  · have h2 : ¬ ((2 : Int) < 0) := by decide
    simp only [build_google_graph, if_neg h2]
    rw [show (2 : Int).toNat = 2 from rfl, hdrain]
    simp only [hnorm]
    norm_num

/-- C17: for every `n > 0`, every `alpha` with `0 < alpha < 1` and every in-range edge
list in which every vertex has at least one outgoing edge, if the vertex `j` in `[0,n)` is
the `dest` of no edge, then `G[j]` is empty in the graph that `build_google_graph` returns
and, for every iteration count `k ≥ 1`, `PageRank` run from the uniform start vector
returns a vector whose entry `j` is exactly `0`. -/
theorem no_inlinks_rank_zero [LinearOrderedField K] (n : Nat) (hn : 0 < n) (alpha : K)
    (h0 : 0 < alpha) (h1 : alpha < 1) (E : List (Int × Int)) (hE : edges_in_range n E)
    (hout : ∀ s : Int, 0 ≤ s → s < (n : Int) → ∃ e ∈ E, e.1 = s)
    (j : Int) (hj0 : 0 ≤ j) (hj1 : j < (n : Int)) (hj : ∀ e ∈ E, e.2 ≠ j)
    (k : Int) (hk : 1 ≤ k) :
    ∃ (G : Graph K) (pi : List K), build_google_graph (n : Int) E alpha = some ([], G) ∧
      vec_get G j = some [] ∧ PageRank G (initial_pi (n : Int)) k = some pi ∧
      vec_get pi j = some 0 := by
  obtain ⟨G, hbuild, hlen, -, hent⟩ := build_google_graph_spec n E alpha hE
  obtain ⟨G', hbuild', hG⟩ := build_google_graph_positive n hn alpha h0 h1 E hE
  rw [hbuild] at hbuild'
  simp only [Option.some.injEq, Prod.mk.injEq, true_and] at hbuild'
  subst hbuild'
  obtain ⟨row, hrow⟩ := vec_get_in_range G j hj0 (by rw [hlen]; exact hj1)
  have hnil : row = [] := by
    apply row_eq_nil_of_find_none
    intro s
    have he : entry G j s = find row s := by simp only [entry, hrow]
    rw [← he, hent]
    by_cases hs : 0 ≤ s ∧ s < (n : Int)
    · obtain ⟨e, heE, hes⟩ := hout s hs.1 hs.2
      have hz : outdeg E s ≠ 0 := by
        rw [Ne, outdeg_eq_zero_iff]
        exact fun h => h e heE hes
      have hmem : (s, j) ∉ E := fun h => hj (s, j) h rfl
      rw [if_pos ⟨⟨hj0, hj1⟩, hs⟩, if_neg hz, if_neg hmem]
    · rw [if_neg (fun h => hs h.2)]
  subst hnil
  obtain ⟨m, hm⟩ : ∃ m : Nat, k.toNat = m + 1 := ⟨k.toNat - 1, by omega⟩
  obtain ⟨p, hp, hpv⟩ := PageRank_loop_probability_vector n G hG m
    (initial_pi (n : Int)) (initial_pi_probability_vector n hn)
  obtain ⟨-, -, -, pi', hround, -⟩ := round_probability_vector n G p hG hpv
  refine ⟨G, pi', hbuild, hrow, ?_, PageRank_round_empty_row G p pi' j hrow hround⟩
  unfold PageRank
  rw [hm, PageRank_loop_succ, hp]
  exact hround

/-- Witness of C17: two vertices, the edges `(0,1)`, `(1,1)`, `alpha = 17/20`, the vertex
`0` without in-link, one round. -/
theorem no_inlinks_rank_zero_witness :
    ∃ (G : Graph ℚ) (pi : List ℚ),
      build_google_graph ((2 : Nat) : Int) [(0, 1), (1, 1)] (17 / 20) = some ([], G) ∧
      vec_get G 0 = some [] ∧ PageRank G (initial_pi ((2 : Nat) : Int)) 1 = some pi ∧
      vec_get pi 0 = some 0 :=
  no_inlinks_rank_zero 2 (by decide) (17 / 20) (by norm_num) (by norm_num)
    [(0, 1), (1, 1)] (by decide)
    (by
      intro s hs0 hs1
      have hs : s = 0 ∨ s = 1 := by omega
      rcases hs with h | h <;> subst h
      · exact ⟨(0, 1), by decide, rfl⟩
      · exact ⟨(1, 1), by decide, rfl⟩)
    0 (by decide) (by decide) (by decide) 1 (by decide)

/-- C20, as amended (exact arithmetic, no zero divisor): in exact arithmetic, for every `G`
with `n` rows and keys in `[0,n)`, every vector `pi0` of length `n`, every non-zero scalar
`c` and every iteration count `k ≥ 1` such that no round of the run from `pi0` has a zero
renormalization divisor, `PageRank` returns a vector from `pi0`, from `c*pi0` it returns
the same vector, and no round of the run from `c*pi0` has a zero divisor either: the fresh
vector of the first round from `c*pi0` is `c` times the one from `pi0`, and so is the
divisor. -/
theorem start_scale_irrelevant [LinearOrderedField K] (n : Nat) (G : Graph K)
    (pi0 : List K) (c : K) (hlen : G.length = n)
    (hkeys : ∀ row ∈ G, ∀ k ∈ keys row, 0 ≤ k ∧ k < (n : Int)) (hpi : pi0.length = n)
    (hc : c ≠ 0) (k : Int) (hk : 1 ≤ k)
    (hdiv : ∀ (j : Nat) (p next_pi : List K), j < k.toNat →
      PageRank G pi0 (j : Int) = some p → next_vector p G = some next_pi →
      L1_sum next_pi ≠ 0) :
    (∃ p : List K, PageRank G pi0 k = some p ∧
      PageRank G (pi0.map (fun x => c * x)) k = some p) ∧
    (∀ (j : Nat) (p next_pi : List K), j < k.toNat →
      PageRank G (pi0.map (fun x => c * x)) (j : Int) = some p →
      next_vector p G = some next_pi → L1_sum next_pi ≠ 0) ∧
    ∃ next_pi : List K, next_vector pi0 G = some next_pi ∧
      next_vector (pi0.map (fun x => c * x)) G = some (next_pi.map (fun x => c * x)) ∧
      L1_sum (next_pi.map (fun x => c * x)) = c * L1_sum next_pi := by
  have hread : ∀ row ∈ G, ∀ k ∈ keys row, ∃ p, vec_get pi0 k = some p := by
    intro row hrow k hk
    have := hkeys row hrow k hk
    exact vec_get_in_range pi0 k this.1 (by rw [hpi]; exact this.2)
  have hnext := next_vector_eq pi0 G hread
  have hnext' : next_vector (pi0.map (fun x => c * x)) G =
      some ((G.map (row_value pi0)).map (fun x => c * x)) := by
    rw [next_vector_scale, hnext]
    rfl
  have hpos : 0 < k.toNat := by omega
  refine ⟨?_, ?_, G.map (row_value pi0), hnext, hnext', L1_sum_scale c _⟩
  · obtain ⟨p, hp, -⟩ := PageRank_loop_defined n G hlen hkeys k.toNat pi0 hpi
    refine ⟨p, hp, ?_⟩
    obtain ⟨m, hm⟩ : ∃ m : Nat, k.toNat = m + 1 := ⟨k.toNat - 1, by omega⟩
    unfold PageRank
    rw [hm] at hp ⊢
    rw [PageRank_loop_scale c hc, hp]
  · intro j p next_pi hj hp hn
    rw [PageRank_natCast] at hp
    cases j with
    | zero =>
      simp only [PageRank_loop, Option.some.injEq] at hp
      subst hp
      rw [hnext'] at hn
      simp only [Option.some.injEq] at hn
      subst hn
      rw [L1_sum_scale]
      exact mul_ne_zero hc (hdiv 0 pi0 _ hpos (by rw [PageRank_natCast]; rfl) hnext)
    | succ m =>
      rw [PageRank_loop_scale c hc] at hp
      exact hdiv (m + 1) p next_pi hj (by rw [PageRank_natCast]; exact hp) hn

/-- Witness of C20 as amended (exact arithmetic over the rationals): the graph of scenario
B, the probability vector `[1/4, 3/4]`, whose rounds have positive divisors, the scalar
`-8` and three rounds. -/
theorem start_scale_irrelevant_witness :
    (∃ p : List ℚ,
      PageRank [[(1, 1 / 2)], [(0, 37 / 40), (1, 1 / 2)]] [1 / 4, 3 / 4] 3 = some p ∧
      PageRank [[(1, 1 / 2)], [(0, 37 / 40), (1, 1 / 2)]]
        (([1 / 4, 3 / 4] : List ℚ).map (fun x => -8 * x)) 3 = some p) ∧
    (∀ (j : Nat) (p next_pi : List ℚ), j < (3 : Int).toNat →
      PageRank [[(1, 1 / 2)], [(0, 37 / 40), (1, 1 / 2)]]
        (([1 / 4, 3 / 4] : List ℚ).map (fun x => -8 * x)) (j : Int) = some p →
      next_vector p [[(1, 1 / 2)], [(0, 37 / 40), (1, 1 / 2)]] = some next_pi →
      L1_sum next_pi ≠ 0) ∧
    ∃ next_pi : List ℚ,
      next_vector [1 / 4, 3 / 4] [[(1, 1 / 2)], [(0, 37 / 40), (1, 1 / 2)]] = some next_pi ∧
      next_vector (([1 / 4, 3 / 4] : List ℚ).map (fun x => -8 * x))
        [[(1, 1 / 2)], [(0, 37 / 40), (1, 1 / 2)]] = some (next_pi.map (fun x => -8 * x)) ∧
      L1_sum (next_pi.map (fun x => -8 * x)) = -8 * L1_sum next_pi :=
  start_scale_irrelevant 2 [[(1, 1 / 2)], [(0, 37 / 40), (1, 1 / 2)]] [1 / 4, 3 / 4] (-8) rfl
    (by
      intro row hrow k hk
      simp only [List.mem_cons, List.mem_singleton, List.not_mem_nil, or_false] at hrow
      rcases hrow with h | h <;> subst h <;>
        simp only [keys, List.map_cons, List.map_nil, List.mem_cons, List.mem_singleton,
          List.not_mem_nil, or_false] at hk
      · subst hk; decide
      · rcases hk with h | h <;> subst h <;> decide)
    rfl (by norm_num) 3 (by decide)
    (by
      intro j p next_pi _ hp hn
      exact scenario_B_divisor_nonzero [1 / 4, 3 / 4]
        ⟨rfl, by intro x hx; simp at hx; rcases hx with h | h <;> rw [h] <;> norm_num,
          by norm_num⟩ j p next_pi (by rw [← PageRank_natCast]; exact hp) hn)

/-- C20 as stated fails in `double` arithmetic.  On the graph of scenario B built with
`alpha = 0.85`, from the start vector `[1/4, 3/4]` one round returns a first entry
`3442241753404201 * 2^-53`, and from `3 * [1/4, 3/4] = [3/4, 9/4]` (exact products) it
returns `6884483506808401 * 2^-54`, one unit in the last place less.  The rows of this
graph hold at most two entries, for which the order of traversal does not change a
`double` sum. -/
theorem start_scale_irrelevant_counterexample :
    ∃ (G : Graph Double) (p q : List Double),
      build_google_graph_double 2 [(0, 1)] (Double.round 17 20 0) = some ([], G) ∧
      ([Double.round 1 4 0, Double.round 3 4 0].map (fun x => Double.mul (Double.ofInt 3) x) =
        [⟨3, -2⟩, ⟨9, -2⟩]) ∧
      PageRank_double G [Double.round 1 4 0, Double.round 3 4 0] 1 = some p ∧
      PageRank_double G
        ([Double.round 1 4 0, Double.round 3 4 0].map
          (fun x => Double.mul (Double.ofInt 3) x)) 1 = some q ∧
      p = [⟨3442241753404201, -53⟩, ⟨5564957501336791, -53⟩] ∧
      q = [⟨6884483506808401, -54⟩, ⟨5564957501336791, -53⟩] ∧ p ≠ q := by
  exact ⟨_, _, _, scenario_B_graph_double, by decide!, by decide!, by decide!, rfl, rfl,
    by decide!⟩

end Claims

end UCPageRank
